import Mathlib

/-!
# Verification of the log-ng logging facade

A shallow embedding of the browser logging facade in `src/unnamed/part_000`
(the `Logger` constructor, `ConsoleTransport`, `FileTransport`,
`APITransport` and the `interpolate` template engine) and of the
server-side `setLogLevel` wrapper that appears in `src/file.spec.js`.

JavaScript values are embedded as the inductive type `JSVal`: numbers are
modelled as `Int` (every numeric value appearing in the claims is an
integer; fractional and exponent JSON number literals are outside the model
and are treated as parse failures), objects as association lists in
property order, and `undefined` as an explicit constructor.  The host
functions the source leans on (`JSON.parse`, `JSON.stringify`, string
coercion, `String.prototype.replace` with the `/\{\{(.+?)}}/g` pattern)
are embedded executably below.  Asynchronous side-effecting transport code
is modelled by explicit event traces; exceptions are modelled with
`Except`/`Option` results.
-/

namespace LogNg

/-- JavaScript values: `undefined`, `null`, booleans, (integer) numbers,
strings, arrays and plain objects (as association lists in property order). -/
inductive JSVal where
  | undef : JSVal
  | null : JSVal
  | bool : Bool → JSVal
  | num : Int → JSVal
  | str : String → JSVal
  | arr : List JSVal → JSVal
  | obj : List (String × JSVal) → JSVal

mutual

/-- Structural equality test on `JSVal`. -/
def JSVal.beq : JSVal → JSVal → Bool
  | .undef, .undef => true
  | .null, .null => true
  | .bool a, .bool b => a == b
  | .num a, .num b => a == b
  | .str a, .str b => a == b
  | .arr a, .arr b => JSVal.beqList a b
  | .obj a, .obj b => JSVal.beqFields a b
  | _, _ => false

/-- Structural equality on lists of `JSVal`. -/
def JSVal.beqList : List JSVal → List JSVal → Bool
  | [], [] => true
  | a :: as, b :: bs => JSVal.beq a b && JSVal.beqList as bs
  | _, _ => false

/-- Structural equality on association lists of `JSVal`. -/
def JSVal.beqFields : List (String × JSVal) → List (String × JSVal) → Bool
  | [], [] => true
  | (k, v) :: as, (k', v') :: bs => k == k' && JSVal.beq v v' && JSVal.beqFields as bs
  | _, _ => false

end

mutual

/-- `JSVal.beq` decides propositional equality. -/
def JSVal.beq_iff : ∀ a b : JSVal, JSVal.beq a b = true ↔ a = b
  | .undef, b => by cases b <;> simp [JSVal.beq]
  | .null, b => by cases b <;> simp [JSVal.beq]
  | .bool a, b => by cases b <;> simp [JSVal.beq]
  | .num a, b => by cases b <;> simp [JSVal.beq]
  | .str a, b => by cases b <;> simp [JSVal.beq]
  | .arr a, b => by
      cases b <;> simp [JSVal.beq]
      exact JSVal.beqList_iff a _
  | .obj a, b => by
      cases b <;> simp [JSVal.beq]
      exact JSVal.beqFields_iff a _

/-- `JSVal.beqList` decides propositional equality. -/
def JSVal.beqList_iff : ∀ a b : List JSVal, JSVal.beqList a b = true ↔ a = b
  | [], b => by cases b <;> simp [JSVal.beqList]
  | x :: xs, b => by
      cases b with
      | nil => simp [JSVal.beqList]
      | cons y ys =>
          simp [JSVal.beqList, JSVal.beq_iff x y, JSVal.beqList_iff xs ys]

/-- `JSVal.beqFields` decides propositional equality. -/
def JSVal.beqFields_iff :
    ∀ a b : List (String × JSVal), JSVal.beqFields a b = true ↔ a = b
  | [], b => by cases b <;> simp [JSVal.beqFields]
  | (k, v) :: xs, b => by
      cases b with
      | nil => simp [JSVal.beqFields]
      | cons y ys =>
          obtain ⟨k', v'⟩ := y
          simp [JSVal.beqFields, JSVal.beq_iff v v', JSVal.beqFields_iff xs ys,
            and_assoc]

end

instance : BEq JSVal := ⟨JSVal.beq⟩

instance : LawfulBEq JSVal where
  eq_of_beq h := (JSVal.beq_iff _ _).mp h
  rfl := (JSVal.beq_iff _ _).mpr rfl

instance : DecidableEq JSVal := fun a b =>
  decidable_of_iff (JSVal.beq a b = true) (JSVal.beq_iff a b)

/-- Property lookup on a JavaScript object (association list); `none`
stands for an absent property. -/
def jsLookup : List (String × JSVal) → String → Option JSVal
  | [], _ => none
  | (k, v) :: rest, key => if k = key then some v else jsLookup rest key

/-- Property assignment on a JavaScript object: overwrites in place if the
key exists, appends otherwise (JS property-order semantics). -/
def setKey : List (String × JSVal) → String → JSVal → List (String × JSVal)
  | [], k, v => [(k, v)]
  | (k', v') :: rest, k, v =>
      if k' = k then (k', v) :: rest else (k', v') :: setKey rest k v

/-- Object spread/`Object.assign` semantics: every property of `extra` is
assigned onto `base` in order, later keys overriding earlier ones. -/
def jsSpread (base extra : List (String × JSVal)) : List (String × JSVal) :=
  extra.foldl (fun acc kv => setKey acc kv.1 kv.2) base

/-- The ordered level enumeration from `src/unnamed/part_000` line 1. -/
def levels : List String := ["noop", "error", "warn", "info", "debug", "trace"]

/-- `Array.prototype.indexOf`: index of the first occurrence, `-1` if absent. -/
def jsIndexOf : List String → String → Int
  | [], _ => -1
  | a :: rest, x =>
      if a = x then 0
      else
        let r := jsIndexOf rest x
        if r = -1 then -1 else r + 1

/-- The log record built by `Logger.prototype.log`
(`src/unnamed/part_000` lines 34-39): the object literal
`{level, msg, category: filename, ...params}` — note that the spread of
`params` comes last and therefore overrides the three base fields. -/
def mkLogRecord (level : String) (msg : JSVal) (category : String)
    (params : List (String × JSVal)) : List (String × JSVal) :=
  jsSpread [("level", .str level), ("msg", msg), ("category", .str category)] params

/-- The dispatch performed by `Logger.prototype.log`
(`src/unnamed/part_000` lines 31-42): when
`levels.indexOf(level) <= levels.indexOf(currentLevel)` the record is
delivered to every registered transport (modelled as the list of
(transport name, record) deliveries), otherwise to none. -/
def logDispatch (currentLevel : String) (transports : List String)
    (level : String) (msg : JSVal) (params : List (String × JSVal))
    (category : String) : List (String × List (String × JSVal)) :=
  if jsIndexOf levels level ≤ jsIndexOf levels currentLevel then
    transports.map (fun t => (t, mkLogRecord level msg category params))
  else []

/-- `Logger.setLogLevel` from `src/unnamed/part_000` lines 102-110: returns
the new state together with `some errorMessage` when the level is invalid
(the thrown `Error`); the state is unchanged in that case. -/
def setLogLevel (newLevel : String) (current : String) : String × Option String :=
  if levels.any (fun level => level == newLevel) then (newLevel, none)
  else (current, some (newLevel ++ " is not a valid logger level"))

/-- The server-facing wrapper's `setLogLevel` from `src/file.spec.js`
lines 123-127: `Logger.instance.level = newLevel` — any value is accepted
unconditionally. -/
def serverSetLogLevel (newLevel : String) (_current : String) : String :=
  newLevel

/-! ## Decimal and hexadecimal digits -/

/-- The decimal digit character for `n < 10`. -/
def decDigit (n : Nat) : Char := Char.ofNat (48 + n)

/-- Fuelled worker for `natToDigits`; any fuel above `n` suffices since
`n / 10 < n` for `n ≥ 10`. -/
def natToDigitsGo : Nat → Nat → List Char
  | 0, n => [decDigit n]
  | fuel + 1, n =>
      if n < 10 then [decDigit n]
      else natToDigitsGo fuel (n / 10) ++ [decDigit (n % 10)]

/-- Decimal digits of a natural number, most significant first. -/
def natToDigits (n : Nat) : List Char := natToDigitsGo n n

/-- Decimal representation of an integer (the result of JS `String(n)` for
integer-valued numbers). -/
def intToChars (n : Int) : List Char :=
  if n < 0 then '-' :: natToDigits n.natAbs else natToDigits n.toNat

/-- Lower-case hexadecimal digit character for `n < 16`. -/
def hexDigitChar (n : Nat) : Char :=
  if n < 10 then Char.ofNat (48 + n) else Char.ofNat (87 + n)

/-- Value of a hexadecimal digit character, `none` for anything else. -/
def hexVal (c : Char) : Option Nat :=
  if 48 ≤ c.toNat ∧ c.toNat ≤ 57 then some (c.toNat - 48)
  else if 97 ≤ c.toNat ∧ c.toNat ≤ 102 then some (c.toNat - 87)
  else if 65 ≤ c.toNat ∧ c.toNat ≤ 70 then some (c.toNat - 55)
  else none

/-! ## JSON.stringify -/

/-- The escape sequence `JSON.stringify` emits for one string character. -/
def escapeChar (c : Char) : List Char :=
  if c = '"' then ['\\', '"']
  else if c = '\\' then ['\\', '\\']
  else if c = '\n' then ['\\', 'n']
  else if c = '\t' then ['\\', 't']
  else if c = '\r' then ['\\', 'r']
  else if c.toNat = 8 then ['\\', 'b']
  else if c.toNat = 12 then ['\\', 'f']
  else if c.toNat < 32 then
    ['\\', 'u', '0', '0', hexDigitChar (c.toNat / 16), hexDigitChar (c.toNat % 16)]
  else [c]

/-- Escape every character of a string body. -/
def escapeList : List Char → List Char
  | [] => []
  | c :: rest => escapeChar c ++ escapeList rest

/-- Parser steps needed to read an escaped string body back: one step for
a plain character, two for an escape sequence. -/
def escCost : List Char → Nat
  | [] => 0
  | c :: rest => min (escapeChar c).length 2 + escCost rest

mutual

/-- `JSON.stringify`.  `undefined` occurs only in array position, where
`JSON.stringify` serializes it as `null`; `undefined`-valued object
properties are omitted by `stringifyFields`. -/
def stringifyJSON : JSVal → List Char
  | .undef => "null".data
  | .null => "null".data
  | .bool true => "true".data
  | .bool false => "false".data
  | .num n => intToChars n
  | .str s => '"' :: (escapeList s.data ++ ['"'])
  | .arr l => '[' :: (stringifyElems l ++ [']'])
  | .obj kvs => '{' :: (stringifyFields kvs ++ ['}'])

/-- Comma-joined serialization of array elements. -/
def stringifyElems : List JSVal → List Char
  | [] => []
  | [v] => stringifyJSON v
  | v :: rest => stringifyJSON v ++ ',' :: stringifyElems rest

/-- Comma-joined serialization of object properties, omitting
`undefined`-valued ones as `JSON.stringify` does. -/
def stringifyFields : List (String × JSVal) → List Char
  | [] => []
  | (k, v) :: rest =>
      if v = .undef then stringifyFields rest
      else
        let entry := '"' :: (escapeList k.data ++ '"' :: ':' :: stringifyJSON v)
        let restChars := stringifyFields rest
        if restChars = [] then entry else entry ++ ',' :: restChars

end

/-! ## JavaScript string coercion -/

mutual

/-- JS `String(v)` coercion: arrays join their elements with commas
(`null`/`undefined` elements become empty), plain objects print as
`[object Object]`. -/
def jsToString : JSVal → String
  | .undef => "undefined"
  | .null => "null"
  | .bool true => "true"
  | .bool false => "false"
  | .num n => String.mk (intToChars n)
  | .str s => s
  | .arr l => String.mk (jsArrayToString l)
  | .obj _ => "[object Object]"

/-- `Array.prototype.toString`: comma-join of the coerced elements, with
`null` and `undefined` elements printing as the empty string. -/
def jsArrayToString : List JSVal → List Char
  | [] => []
  | [.undef] => []
  | [.null] => []
  | [v] => (jsToString v).data
  | .undef :: rest => ',' :: jsArrayToString rest
  | .null :: rest => ',' :: jsArrayToString rest
  | v :: rest => (jsToString v).data ++ ',' :: jsArrayToString rest

end

/-! ## JSON.parse

A fuelled recursive-descent parser for the JSON grammar, faithful to
`JSON.parse` except that number literals are restricted to integers
(fraction/exponent parts make the parse fail rather than produce a float)
and `\uXXXX` escapes naming invalid scalar values fall back to `Char.ofNat`'s
default.  The fuel is decremented on each recursive step; `parseJSONChars`
supplies `2 * length + 2` fuel, which is shown sufficient for every
serialized value (`costVal_le_stringify` below). -/

/-- JSON insignificant whitespace. -/
def isWsChar (c : Char) : Bool :=
  c == ' ' || c == '\t' || c == '\n' || c == '\r'

/-- Drop leading JSON whitespace. -/
def skipWs : List Char → List Char
  | [] => []
  | c :: rest => if isWsChar c then skipWs rest else c :: rest

/-- Decode a `\uXXXX` escape: four hexadecimal digits. -/
def parseHex4 : List Char → Option (Char × List Char)
  | d1 :: d2 :: d3 :: d4 :: rest =>
      match hexVal d1, hexVal d2, hexVal d3, hexVal d4 with
      | some a, some b, some c2, some d =>
          some (Char.ofNat (((a * 16 + b) * 16 + c2) * 16 + d), rest)
      | _, _, _, _ => none
  | _ => none

mutual

/-- Parse the body of a JSON string literal after the opening quote,
accumulating decoded characters in reverse.  The fuel is decremented per
step and dominates the input length at every call site. -/
def parseStringBody : Nat → List Char → List Char → Option (String × List Char)
  | 0, _, _ => none
  | _ + 1, [], _ => none
  | fuel + 1, c :: rest, acc =>
    if c = '"' then some (String.mk acc.reverse, rest)
    else if c = '\\' then parseStringEscape fuel rest acc
    else if c.toNat < 32 then none
    else parseStringBody fuel rest (c :: acc)

/-- Decode the character after a backslash inside a JSON string literal. -/
def parseStringEscape : Nat → List Char → List Char → Option (String × List Char)
  | 0, _, _ => none
  | _ + 1, [], _ => none
  | fuel + 1, e :: rest2, acc =>
    if e = '"' then parseStringBody fuel rest2 ('"' :: acc)
    else if e = '\\' then parseStringBody fuel rest2 ('\\' :: acc)
    else if e = '/' then parseStringBody fuel rest2 ('/' :: acc)
    else if e = 'n' then parseStringBody fuel rest2 ('\n' :: acc)
    else if e = 't' then parseStringBody fuel rest2 ('\t' :: acc)
    else if e = 'r' then parseStringBody fuel rest2 ('\r' :: acc)
    else if e = 'b' then parseStringBody fuel rest2 (Char.ofNat 8 :: acc)
    else if e = 'f' then parseStringBody fuel rest2 (Char.ofNat 12 :: acc)
    else if e = 'u' then
      match parseHex4 rest2 with
      | some p => parseStringBody fuel p.2 (p.1 :: acc)
      | none => none
    else none

end

/-- Consume a run of decimal digits, folding them onto `acc`. -/
def takeDigitsAcc (acc : Nat) : List Char → Nat × List Char
  | [] => (acc, [])
  | c :: rest =>
      if c.isDigit then takeDigitsAcc (acc * 10 + (c.toNat - 48)) rest
      else (acc, c :: rest)

/-- After an integer literal, the next character must not extend the
number: further digits would violate the leading-zero rule, and
`.`/`e`/`E` would start the (unmodelled) fraction/exponent part. -/
def numStopOk : List Char → Bool
  | [] => true
  | c :: _ => !(c.isDigit || c == '.' || c == 'e' || c == 'E')

/-- Parse an unsigned JSON integer (leading-zero rule included). -/
def parseIntNat : List Char → Option (Nat × List Char)
  | [] => none
  | c :: rest =>
    if c = '0' then if numStopOk rest then some (0, rest) else none
    else if c.isDigit then
      let p := takeDigitsAcc (c.toNat - 48) rest
      if numStopOk p.2 then some p else none
    else none

/-- Parse a (possibly negative) JSON integer literal. -/
def parseNumber : List Char → Option (JSVal × List Char)
  | [] => none
  | c :: rest =>
    if c = '-' then (parseIntNat rest).map (fun p => (.num (-(p.1 : Int)), p.2))
    else (parseIntNat (c :: rest)).map (fun p => (.num ((p.1 : Int)), p.2))

mutual

/-- Parse one JSON value (leading whitespace allowed). -/
def parseVal : Nat → List Char → Option (JSVal × List Char)
  | 0, _ => none
  | fuel + 1, input =>
    match skipWs input with
    | [] => none
    | c :: rest =>
      if c = 'n' then
        match rest with
        | 'u' :: 'l' :: 'l' :: r => some (.null, r)
        | _ => none
      else if c = 't' then
        match rest with
        | 'r' :: 'u' :: 'e' :: r => some (.bool true, r)
        | _ => none
      else if c = 'f' then
        match rest with
        | 'a' :: 'l' :: 's' :: 'e' :: r => some (.bool false, r)
        | _ => none
      else if c = '"' then
        (parseStringBody (rest.length + 1) rest []).map (fun p => (.str p.1, p.2))
      else if c = '[' then
        match skipWs rest with
        | [] => none
        | d :: r =>
            if d = ']' then some (.arr [], r)
            else (parseElems fuel (d :: r)).map (fun p => (.arr p.1, p.2))
      else if c = '{' then
        match skipWs rest with
        | [] => none
        | d :: r =>
            if d = '}' then some (.obj [], r)
            else (parseFields fuel (d :: r)).map (fun p => (.obj p.1, p.2))
      else parseNumber (c :: rest)

/-- Parse the comma-separated elements of a non-empty JSON array,
consuming the closing bracket. -/
def parseElems : Nat → List Char → Option (List JSVal × List Char)
  | 0, _ => none
  | fuel + 1, input =>
    match parseVal fuel input with
    | none => none
    | some (v, r) =>
      match skipWs r with
      | [] => none
      | c :: r2 =>
        if c = ',' then
          match parseElems fuel r2 with
          | none => none
          | some (vs, r3) => some (v :: vs, r3)
        else if c = ']' then some ([v], r2)
        else none

/-- Parse the comma-separated members of a non-empty JSON object,
consuming the closing brace. -/
def parseFields : Nat → List Char → Option (List (String × JSVal) × List Char)
  | 0, _ => none
  | fuel + 1, input =>
    match skipWs input with
    | [] => none
    | c :: rest =>
      if c = '"' then
        match parseStringBody (rest.length + 1) rest [] with
        | none => none
        | some (k, r) =>
          match skipWs r with
          | [] => none
          | c2 :: r2 =>
            if c2 = ':' then
              match parseVal fuel r2 with
              | none => none
              | some (v, r3) =>
                match skipWs r3 with
                | [] => none
                | c3 :: r4 =>
                  if c3 = ',' then
                    match parseFields fuel r4 with
                    | none => none
                    | some (kvs, r5) => some ((k, v) :: kvs, r5)
                  else if c3 = '}' then some ([(k, v)], r4)
                  else none
            else none
      else none

end

/-- `JSON.parse` on a character list: one value, then only trailing
whitespace. -/
def parseJSONChars (l : List Char) : Option JSVal :=
  match parseVal (2 * l.length + 2) l with
  | some (v, r) => if skipWs r = [] then some v else none
  | none => none

/-- `JSON.parse` on a string. -/
def parseJSONStr (s : String) : Option JSVal := parseJSONChars s.data

/-! ## The placeholder scanner

`template.replace(/\{\{(.+?)}}/g, ...)` from `src/unnamed/part_000`
line 358: a left-to-right scan; at each position a match needs `{{`, then a
shortest non-empty run of non-newline characters, then the first `}}`.  On
a match the capture is substituted and scanning resumes after the `}}`; on
a failed match the scan advances one character.  (JS `.` also excludes
U+2028/U+2029; those are not modelled.) -/

/-- Newline characters that `.` does not match. -/
def isNlChar (c : Char) : Bool := c == '\n' || c == '\r'

/-- Search for the first `}}` at distance at least one from the opening
`{{`, accumulating the capture in reverse. -/
def findCloseAux : List Char → List Char → Option (List Char × List Char)
  | _, [] => none
  | _, [_] => none
  | acc, c :: d :: rest =>
      if c == '}' && d == '}' then some (acc.reverse, rest)
      else if isNlChar c then none
      else findCloseAux (c :: acc) (d :: rest)

/-- Match the `(.+?)}}` part after an opening `{{`: at least one capture
character, no newline, then the first `}}`. -/
def findClose : List Char → Option (List Char × List Char)
  | [] => none
  | c :: rest => if isNlChar c then none else findCloseAux [c] rest

/-- One fuelled step of the global-replace scan.  The fuel dominates the
input length, so the `0` case is never reached by `scanTemplate`. -/
def scanGo (subst : String → String) : Nat → List Char → List Char
  | 0, l => l
  | _ + 1, [] => []
  | fuel + 1, c :: rest =>
      match rest with
      | [] => [c]
      | d :: rest2 =>
          if c == '{' && d == '{' then
            match findClose rest2 with
            | some (key, after) =>
                (subst (String.mk key)).data ++ scanGo subst fuel after
            | none => c :: scanGo subst fuel rest
          else c :: scanGo subst fuel rest

/-- Global replace of `/\{\{(.+?)}}/g` with a substitution function. -/
def scanTemplate (subst : String → String) (l : List Char) : List Char :=
  scanGo subst l.length l

/-- Does the template contain a placeholder the regex would match? -/
def hasPlaceholder : List Char → Bool
  | [] => false
  | c :: rest =>
      match rest with
      | [] => false
      | d :: rest2 =>
          if c == '{' && d == '{' then
            match findClose rest2 with
            | some _ => true
            | none => hasPlaceholder rest
          else hasPlaceholder rest

/-! ## interpolate -/

/-- JS falsiness for the values the model can hold (`NaN`, the remaining
falsy value, has no representation in the integer number model). -/
def falsy : JSVal → Bool
  | .undef => true
  | .null => true
  | .bool b => !b
  | .num n => n == 0
  | .str s => s == ""
  | _ => false

/-- The replacement for one captured identifier
(`src/unnamed/part_000` lines 358-364): `model[br] || ''`, stringify for
objects/arrays, string coercion otherwise. -/
def substPlaceholder (model : List (String × JSVal)) (key : String) : String :=
  let v0 := (jsLookup model key).getD .undef
  let v := if falsy v0 then .str "" else v0
  match v with
  | .arr _ => String.mk (stringifyJSON v)
  | .obj _ => String.mk (stringifyJSON v)
  | w => jsToString w

/-- String-template interpolation: the global placeholder replace. -/
def replacePlaceholders (s : String) (model : List (String × JSVal)) : String :=
  String.mk (scanTemplate (substPlaceholder model) s.data)

/-- What `interpolate` stores for one container slot
(`src/unnamed/part_000` lines 342-349): `JSON.parse` of the string
coercion of the recursively interpolated value; on parse failure the value
itself unless it is `undefined` or the empty string, which are omitted. -/
def slotResult (val : JSVal) : Option JSVal :=
  match parseJSONStr (jsToString val) with
  | some w => some w
  | none => if val = .undef ∨ val = .str "" then none else some val

/-- Assemble a JS array from slot results: an omitted slot before a kept
one leaves a hole (read back as `undefined`), while omitted slots at the
end do not extend the array's length. -/
def trimTrailingNones (l : List (Option JSVal)) : List JSVal :=
  ((l.reverse.dropWhile Option.isNone).reverse).map (fun o => o.getD .undef)

mutual

/-- The `interpolate` function of `src/unnamed/part_000` lines 338-365. -/
def interpolate : JSVal → List (String × JSVal) → JSVal
  | .arr l, model => .arr (trimTrailingNones (interpElems l model))
  | .obj kvs, model => .obj (interpFields kvs model)
  | .str s, model => .str (replacePlaceholders s model)
  | t, _ => t

/-- Interpolate the slots of an array template. -/
def interpElems : List JSVal → List (String × JSVal) → List (Option JSVal)
  | [], _ => []
  | v :: rest, model =>
      slotResult (interpolate v model) :: interpElems rest model

/-- Interpolate the slots of a mapping template, omitting dropped keys. -/
def interpFields :
    List (String × JSVal) → List (String × JSVal) → List (String × JSVal)
  | [], _ => []
  | (k, v) :: rest, model =>
      match slotResult (interpolate v model) with
      | some w => (k, w) :: interpFields rest model
      | none => interpFields rest model

end

/-! ## A recognizer for the full JSON grammar

The value parser above restricts number literals to integers, so its
failure does not imply that the engine's `JSON.parse` fails: `"1.5"` and
`"2e3"` are valid JSON texts it rejects.  Acceptance, unlike the parsed
value, needs no float representation, so the full grammar can be embedded
faithfully as a recognizer: it mirrors `parseVal` exactly (same literals,
same string parser, same whitespace) with the complete number production
`-? int frac? exp?`.  `slotPreserved` uses it so that a parse failure of
the integer-restricted model counts only when the engine's parser fails
too. -/

/-- Skip a (possibly empty) run of decimal digits. -/
def recDigits : List Char → List Char
  | [] => []
  | c :: rest => if c.isDigit then recDigits rest else c :: rest

/-- Recognize an optional fraction part `. digit+`. -/
def recFrac : List Char → Option (List Char)
  | '.' :: rest =>
      match rest with
      | [] => none
      | d :: rest2 => if d.isDigit then some (recDigits rest2) else none
  | l => some l

/-- Recognize an optional exponent part `(e|E) (+|-)? digit+`. -/
def recExp : List Char → Option (List Char)
  | [] => some []
  | c :: rest =>
      if c = 'e' ∨ c = 'E' then
        match rest with
        | [] => none
        | s :: rest2 =>
            if s = '+' ∨ s = '-' then
              match rest2 with
              | [] => none
              | d :: rest3 => if d.isDigit then some (recDigits rest3) else none
            else if s.isDigit then some (recDigits rest2)
            else none
      else some (c :: rest)

/-- Recognize a full JSON number literal:
`-? (0 | [1-9] digit*) frac? exp?`. -/
def recNumber : List Char → Option (List Char)
  | [] => none
  | c :: rest =>
      match (if c = '-' then rest else c :: rest) with
      | [] => none
      | d :: rest2 =>
          if d = '0' then
            match recFrac rest2 with
            | none => none
            | some r => recExp r
          else if d.isDigit then
            match recFrac (recDigits rest2) with
            | none => none
            | some r => recExp r
          else none

mutual

/-- Recognize one JSON value (full number grammar), returning the rest of
the input; the non-number branches mirror `parseVal` verbatim. -/
def recVal : Nat → List Char → Option (List Char)
  | 0, _ => none
  | fuel + 1, input =>
    match skipWs input with
    | [] => none
    | c :: rest =>
      if c = 'n' then
        match rest with
        | 'u' :: 'l' :: 'l' :: r => some r
        | _ => none
      else if c = 't' then
        match rest with
        | 'r' :: 'u' :: 'e' :: r => some r
        | _ => none
      else if c = 'f' then
        match rest with
        | 'a' :: 'l' :: 's' :: 'e' :: r => some r
        | _ => none
      else if c = '"' then
        (parseStringBody (rest.length + 1) rest []).map (fun p => p.2)
      else if c = '[' then
        match skipWs rest with
        | [] => none
        | d :: r => if d = ']' then some r else recElemsR fuel (d :: r)
      else if c = '{' then
        match skipWs rest with
        | [] => none
        | d :: r => if d = '}' then some r else recFieldsR fuel (d :: r)
      else recNumber (c :: rest)

/-- Recognize the elements of a non-empty JSON array, consuming the
closing bracket. -/
def recElemsR : Nat → List Char → Option (List Char)
  | 0, _ => none
  | fuel + 1, input =>
    match recVal fuel input with
    | none => none
    | some r =>
      match skipWs r with
      | [] => none
      | c :: r2 =>
        if c = ',' then recElemsR fuel r2
        else if c = ']' then some r2
        else none

/-- Recognize the members of a non-empty JSON object, consuming the
closing brace. -/
def recFieldsR : Nat → List Char → Option (List Char)
  | 0, _ => none
  | fuel + 1, input =>
    match skipWs input with
    | [] => none
    | c :: rest =>
      if c = '"' then
        match parseStringBody (rest.length + 1) rest [] with
        | none => none
        | some (_, r) =>
          match skipWs r with
          | [] => none
          | c2 :: r2 =>
            if c2 = ':' then
              match recVal fuel r2 with
              | none => none
              | some r3 =>
                match skipWs r3 with
                | [] => none
                | c3 :: r4 =>
                  if c3 = ',' then recFieldsR fuel r4
                  else if c3 = '}' then some r4
                  else none
            else none
      else none

end

/-- Is `s` a JSON text the engine's `JSON.parse` accepts: one value in the
full grammar, then only trailing whitespace. -/
def realJsonText (s : String) : Bool :=
  match recVal (2 * s.data.length + 2) s.data with
  | some r => skipWs r = []
  | none => false

/-! ## Predicates used by the identity and round-trip claims -/

/-- A slot value that `interpolate`'s opportunistic re-parse step maps to
itself: either its string coercion parses back to the value itself, or it
does not parse — and, since the model parser understates `JSON.parse` on
fraction/exponent numerals, its coercion must not be valid JSON text under
the full grammar either — and the value is neither `undefined` nor the
empty string. -/
def slotPreserved (v : JSVal) : Bool :=
  match parseJSONStr (jsToString v) with
  | some w => w == v
  | none => !(v == .undef) && !(v == .str "")
      && !(realJsonText (jsToString v))

mutual

/-- Templates on which `interpolate` is the identity: no placeholder in
any string, and every container slot survives the re-parse step. -/
def goodTemplate : JSVal → Bool
  | .str s => !hasPlaceholder s.data
  | .arr l => goodElems l
  | .obj kvs => goodFields kvs
  | _ => true

/-- `goodTemplate` for array slots. -/
def goodElems : List JSVal → Bool
  | [] => true
  | v :: rest => goodTemplate v && slotPreserved v && goodElems rest

/-- `goodTemplate` for mapping slots. -/
def goodFields : List (String × JSVal) → Bool
  | [] => true
  | (_, v) :: rest => goodTemplate v && slotPreserved v && goodFields rest

end

mutual

/-- Values in the image of the JSON data model: no `undefined` anywhere
(`JSON.stringify` turns `undefined` array elements into `null` and drops
`undefined` object properties, so such values do not round-trip). -/
def jsonRepresentable : JSVal → Bool
  | .undef => false
  | .arr l => repElems l
  | .obj kvs => repFields kvs
  | _ => true

/-- `jsonRepresentable` for array elements. -/
def repElems : List JSVal → Bool
  | [] => true
  | v :: rest => jsonRepresentable v && repElems rest

/-- `jsonRepresentable` for object property values. -/
def repFields : List (String × JSVal) → Bool
  | [] => true
  | (_, v) :: rest => jsonRepresentable v && repFields rest

end

mutual

/-- Fuel needed by `parseVal` to parse the serialization of a value. -/
def costVal : JSVal → Nat
  | .arr [] => 1
  | .arr (v :: rest) => 1 + costElems (v :: rest)
  | .obj [] => 1
  | .obj (kv :: rest) => 1 + costFields (kv :: rest)
  | _ => 1

/-- Fuel needed by `parseElems` on serialized array elements. -/
def costElems : List JSVal → Nat
  | [] => 1
  | v :: rest => 1 + costVal v + costElems rest

/-- Fuel needed by `parseFields` on serialized object members. -/
def costFields : List (String × JSVal) → Nat
  | [] => 1
  | (_, v) :: rest => 1 + costVal v + costFields rest

end

/-! ## The file transport -/

/-- Events of one `FileTransport.log` call
(`src/unnamed/part_000` lines 246-259). -/
inductive FileEvent where
  | createWritable : FileEvent
  | write : String → FileEvent
  | errorLog : String → FileEvent
  | close : FileEvent
deriving DecidableEq

/-- Template-literal field access: an absent property reads as
`undefined`. -/
def tmplVal (merged : List (String × JSVal)) (k : String) : JSVal :=
  (jsLookup merged k).getD (.undef)

/-- The line written by `FileTransport.log`
(`src/unnamed/part_000` line 253), with `now` standing for
`new Date().toLocaleTimeString(...)`. -/
def fileLine (merged : List (String × JSVal)) (now : String) : String :=
  let ts := tmplVal merged "timestamp"
  jsToString (if falsy ts then .str now else ts) ++ " [" ++
    jsToString (tmplVal merged "category") ++ "] " ++
    jsToString (tmplVal merged "level") ++ ": " ++
    jsToString (tmplVal merged "msg") ++ "\n"

/-- The event trace of one `FileTransport.log` call after a successful
`initialize`: merge config and params, open a writable handle, attempt
the write; a rejected write (`writeError = some e`) is caught and logged
via `console.error`, and the `finally` block closes the handle on every
path.  The function is total: no outcome propagates an exception. -/
def fileLog (config params : List (String × JSVal)) (now : String)
    (writeError : Option String) : List FileEvent :=
  let merged := jsSpread config params
  let line := fileLine merged now
  match writeError with
  | none => [.createWritable, .write line, .close]
  | some e => [.createWritable, .write line, .errorLog e, .close]

/-- Is the event a write? -/
def FileEvent.isWrite : FileEvent → Bool
  | .write _ => true
  | _ => false

/-- Is the event a close? -/
def FileEvent.isClose : FileEvent → Bool
  | .close => true
  | _ => false

/-! ## The API transport -/

/-- The opaque HTTP response handed back by `fetch`. -/
structure ApiResponse where
  ok : Bool
  body : String
deriving DecidableEq

/-- Events of one `APITransport.log` call
(`src/unnamed/part_000` lines 318-334). -/
inductive ApiEvent where
  | fetchReq : JSVal → JSVal → JSVal → JSVal → ApiEvent
  | debugLog : ApiResponse → ApiEvent
  | errorLog : String → ApiEvent

/-- Property access on an interpolated configuration value. -/
def objGet (v : JSVal) (k : String) : JSVal :=
  match v with
  | .obj kvs => (jsLookup kvs k).getD .undef
  | _ => (.undef)

/-- `Object.entries(merged.headers || {}).reduce(copy, {})`: a shallow
copy of the headers object (an empty object for falsy or non-object
headers; degenerate non-object truthy headers are not modelled further
since no claim depends on them). -/
def entriesCopy (v : JSVal) : JSVal :=
  match v with
  | .obj kvs => .obj kvs
  | _ => .obj []

/-- One `APITransport.log` call: interpolate the configured request
template against the record, issue the fetch, and consume its outcome —
a network error (`fetchResult = .error e`) is caught and reported via
`console.error`, a response (success or not) is reported via
`console.debug`.  The `Except.ok` result models that the call never
throws nor rejects to its caller. -/
def apiLog (config : List (String × JSVal)) (record : List (String × JSVal))
    (fetchResult : Except String ApiResponse) : Except String (List ApiEvent) :=
  let merged := interpolate (.obj config) record
  let req := ApiEvent.fetchReq (objGet merged "url") (objGet merged "method")
      (entriesCopy (objGet merged "headers")) (objGet merged "body")
  match fetchResult with
  | .ok resp => .ok [req, .debugLog resp]
  | .error e => .ok [req, .errorLog e]

/-! ## The spec-side description of string interpolation

Modelled from the spec: "replace every occurrence of `{{identifier}}`
with `model[identifier]` stringified; if the looked-up value is itself an
object/array, substitute its canonical serialized form (JSON text);
missing keys substitute as empty string."  This second definition follows
the spec's words and is compared with the code's `substPlaceholder`. -/
def specSubst (model : List (String × JSVal)) (key : String) : String :=
  match jsLookup model key with
  | none => ""
  | some v =>
      match v with
      | .arr _ => String.mk (stringifyJSON v)
      | .obj _ => String.mk (stringifyJSON v)
      | w => jsToString w

/-! # Theorems -/

theorem jsLookup_setKey_self (acc : List (String × JSVal)) (k : String) (v : JSVal) :
    jsLookup (setKey acc k v) k = some v := by
  induction acc with
  | nil => simp [setKey, jsLookup]
  | cons hd tl ih =>
      obtain ⟨k', v'⟩ := hd
      by_cases h : k' = k <;> simp [setKey, jsLookup, h, ih]

theorem jsLookup_setKey_ne (acc : List (String × JSVal)) {k k' : String} (v : JSVal)
    (h : k' ≠ k) : jsLookup (setKey acc k' v) k = jsLookup acc k := by
  induction acc with
  | nil => simp [setKey, jsLookup, h]
  | cons hd tl ih =>
      obtain ⟨k₀, v₀⟩ := hd
      by_cases h₀ : k₀ = k' <;> by_cases h₁ : k₀ = k <;>
        simp_all [setKey, jsLookup]

/-- Spreading properties that do not mention `k` leaves the binding of `k`
in the base object untouched. -/
theorem jsLookup_jsSpread_of_none (base : List (String × JSVal))
    {extra : List (String × JSVal)} {k : String}
    (h : jsLookup extra k = none) :
    jsLookup (jsSpread base extra) k = jsLookup base k := by
  induction extra generalizing base with
  | nil => simp [jsSpread]
  | cons hd tl ih =>
      obtain ⟨k', v'⟩ := hd
      simp only [jsLookup] at h
      by_cases hk : k' = k
      · simp [hk] at h
      · simp only [hk, if_false] at h
        simpa [jsSpread, List.foldl_cons] using
          (ih (setKey base k' v') h).trans (jsLookup_setKey_ne base v' hk)

theorem jsLookup_eq_none_of_not_mem {l : List (String × JSVal)} {k : String}
    (h : k ∉ l.map Prod.fst) : jsLookup l k = none := by
  induction l with
  | nil => rfl
  | cons p ps ih =>
      simp only [List.map_cons, List.mem_cons, not_or] at h
      simp only [jsLookup, Ne.symm h.1, if_false]
      exact ih h.2

/-- Spreading an object whose keys are duplicate-free copies its binding of
`k` over whatever the base object had. -/
theorem jsLookup_jsSpread_of_some (base : List (String × JSVal))
    {extra : List (String × JSVal)} {k : String} {v : JSVal}
    (hnd : (extra.map Prod.fst).Nodup)
    (h : jsLookup extra k = some v) :
    jsLookup (jsSpread base extra) k = some v := by
  induction extra generalizing base with
  | nil => simp [jsLookup] at h
  | cons hd tl ih =>
      obtain ⟨k', v'⟩ := hd
      simp only [List.map_cons, List.nodup_cons] at hnd
      simp only [jsLookup] at h
      by_cases hk : k' = k
      · subst hk
        rw [if_pos rfl] at h
        injection h with h
        subst h
        have htl : jsLookup tl k' = none := jsLookup_eq_none_of_not_mem hnd.1
        have hstep : jsSpread base ((k', v') :: tl) = jsSpread (setKey base k' v') tl := rfl
        rw [hstep, jsLookup_jsSpread_of_none _ htl, jsLookup_setKey_self]
      · simp only [hk, if_false] at h
        exact ih (setKey base k' v') hnd.2 h

/-- C1: with threshold L1, a log call at level L2 delivers the record to a
registered transport iff `levels.indexOf(L2) <= levels.indexOf(L1)`; with
threshold `info` a `debug` call reaches no transport; with threshold
`debug` an `info "hello"` call reaches every transport exactly once with a
record whose `msg` is `"hello"` and `level` is `"info"`. -/
theorem C1_level_filtering (L1 L2 : String) (_hL1 : L1 ∈ levels) (_hL2 : L2 ∈ levels)
    (ts : List String) (msg : JSVal) (params : List (String × JSVal)) (cat : String) :
    (∀ t, (t, mkLogRecord L2 msg cat params) ∈ logDispatch L1 ts L2 msg params cat ↔
        (jsIndexOf levels L2 ≤ jsIndexOf levels L1 ∧ t ∈ ts)) ∧
    logDispatch "info" ts "debug" msg params cat = [] ∧
    logDispatch "debug" ts "info" (.str "hello") [] cat =
      ts.map (fun t => (t, mkLogRecord "info" (.str "hello") cat [])) ∧
    jsLookup (mkLogRecord "info" (.str "hello") cat []) "msg" = some (.str "hello") ∧
    jsLookup (mkLogRecord "info" (.str "hello") cat []) "level" = some (.str "info") := by
  refine ⟨?_, ?_, ?_, rfl, rfl⟩
  · intro t
    by_cases h : jsIndexOf levels L2 ≤ jsIndexOf levels L1
    · simp [logDispatch, h, List.mem_map]
    · simp [logDispatch, h]
  · have h : ¬ (jsIndexOf levels "debug" ≤ jsIndexOf levels "info") := by decide
    simp [logDispatch, h]
  · have h : jsIndexOf levels "info" ≤ jsIndexOf levels "debug" := by decide
    simp [logDispatch, h]

/-- Witness for C1 at threshold `debug`, message level `info`, one
registered transport. -/
theorem C1_level_filtering_witness :
    ("t1", mkLogRecord "info" (.str "m") "c" []) ∈
      logDispatch "debug" ["t1"] "info" (.str "m") [] "c" :=
  (((C1_level_filtering "debug" "info" (by decide) (by decide)
      ["t1"] (.str "m") [] "c").1 "t1").mpr ⟨by decide, by simp⟩)

/-- C3 counterexample: a `.info("hi")` call with no caller-supplied params
passes the `debug` threshold, yet the record handed to the transport has no
`timestamp` field at all — the logger never inserts the current time (the
console/file transports substitute it only while formatting). -/
theorem C3_counterexample :
    logDispatch "debug" ["t1"] "info" (.str "hi") [] "app.js" =
      [("t1", mkLogRecord "info" (.str "hi") "app.js" [])] ∧
    jsLookup (mkLogRecord "info" (.str "hi") "app.js" []) "timestamp" = none := by
  exact ⟨rfl, rfl⟩

/-- C3 amended: the record handed to each transport carries exactly the
caller's `timestamp` when one is supplied in `params`, and carries no
`timestamp` field otherwise. -/
theorem C3_timestamp_passthrough (level cat : String) (msg : JSVal)
    (params : List (String × JSVal)) :
    (jsLookup params "timestamp" = none →
      jsLookup (mkLogRecord level msg cat params) "timestamp" = none) ∧
    (∀ v, (params.map Prod.fst).Nodup → jsLookup params "timestamp" = some v →
      jsLookup (mkLogRecord level msg cat params) "timestamp" = some v) := by
  constructor
  · intro h
    unfold mkLogRecord
    rw [jsLookup_jsSpread_of_none _ h]
    rfl
  · intro v hnd h
    exact jsLookup_jsSpread_of_some _ hnd h

/-- Witness for C3 amended: a caller-supplied timestamp is passed through. -/
theorem C3_timestamp_passthrough_witness :
    jsLookup (mkLogRecord "info" (.str "m") "c" [("timestamp", .str "T1")])
      "timestamp" = some (.str "T1") :=
  (C3_timestamp_passthrough "info" "c" (.str "m") [("timestamp", .str "T1")]).2
    (.str "T1") (by simp) rfl

/-- C4 counterexample: because `Logger.prototype.log` spreads `params`
after the base fields, a caller-supplied `category` in `params` overrides
the category the instance was created with. -/
theorem C4_counterexample :
    jsLookup (mkLogRecord "info" (.str "hi") "ui.js" [("category", .str "other")])
      "category" = some (.str "other") ∧
    JSVal.str "other" ≠ JSVal.str "ui.js" := by
  refine ⟨rfl, ?_⟩
  intro h
  injection h with h
  exact absurd h (by decide)

/-- C4 amended: every record produced by a logger created with category C
has `category = C`, provided the caller's `params` does not itself bind a
`category` key. -/
theorem C4_category_binding (C level : String) (msg : JSVal)
    (params : List (String × JSVal)) (h : jsLookup params "category" = none) :
    jsLookup (mkLogRecord level msg C params) "category" = some (.str C) := by
  unfold mkLogRecord
  rw [jsLookup_jsSpread_of_none _ h]
  rfl

/-- Witness for C4 amended with empty params. -/
theorem C4_category_binding_witness :
    jsLookup (mkLogRecord "info" (.str "m") "ui.js" []) "category" =
      some (.str "ui.js") :=
  C4_category_binding "ui.js" "info" (.str "m") [] rfl

/-- C9: the browser-facing `setLogLevel` accepts exactly the names of the
ordered enumeration (including `noop`), setting the threshold to the given
name; any other name raises the invalid-level error and leaves the
threshold unchanged; the server-facing wrapper accepts any value silently. -/
theorem C9_setLogLevel (l cur : String) :
    (l ∈ levels → setLogLevel l cur = (l, none)) ∧
    (l ∉ levels → setLogLevel l cur =
      (cur, some (l ++ " is not a valid logger level"))) ∧
    serverSetLogLevel l cur = l := by
  refine ⟨?_, ?_, rfl⟩
  · intro h
    have hany : (levels.any fun level => level == l) = true := by
      rw [List.any_eq_true]
      exact ⟨l, h, by simp⟩
    simp [setLogLevel, hany]
  · intro h
    cases hany : levels.any fun level => level == l with
    | false => simp [setLogLevel, hany]
    | true =>
        rw [List.any_eq_true] at hany
        obtain ⟨x, hx, he⟩ := hany
        rw [beq_iff_eq] at he
        exact absurd (he ▸ hx) h

/-- Pointwise equal substitution functions produce the same scan. -/
theorem scanGo_congr {f g : String → String} (h : ∀ k, f k = g k) :
    ∀ fuel l, scanGo f fuel l = scanGo g fuel l := by
  intro fuel
  induction fuel with
  | zero => intro l; rfl
  | succ n ih =>
      intro l
      match l with
      | [] => rfl
      | [c] => rfl
      | c :: d :: rest2 =>
          simp only [scanGo]
          cases hfc : findClose rest2 with
          | some p => simp [hfc, h, ih]
          | none => simp [hfc, ih]

/-- Pointwise equal substitution functions produce the same replace. -/
theorem scanTemplate_congr {f g : String → String} (h : ∀ k, f k = g k)
    (l : List Char) : scanTemplate f l = scanTemplate g l :=
  scanGo_congr h l.length l

/-- A template string the regex does not match is left unchanged by the
global replace, whatever the fuel. -/
theorem scanGo_id (subst : String → String) :
    ∀ fuel (l : List Char), hasPlaceholder l = false → scanGo subst fuel l = l := by
  intro fuel
  induction fuel with
  | zero => intro l _; rfl
  | succ n ih =>
      intro l h
      match l with
      | [] => rfl
      | [c] => rfl
      | c :: d :: rest2 =>
          have hunfold : hasPlaceholder (c :: d :: rest2) =
              (if (c == '{' && d == '{') = true then
                match findClose rest2 with
                | some _ => true
                | none => hasPlaceholder (d :: rest2)
              else hasPlaceholder (d :: rest2)) := rfl
          rw [hunfold] at h
          simp only [scanGo]
          by_cases hcd : (c == '{' && d == '{') = true
          · rw [if_pos hcd] at h ⊢
            cases hfc : findClose rest2 with
            | some p => rw [hfc] at h; cases h
            | none =>
                rw [hfc] at h
                rw [ih _ h]
          · rw [if_neg hcd] at h ⊢
            rw [ih _ h]

/-- A placeholder-free string is a fixed point of `scanTemplate`. -/
theorem scanTemplate_id (subst : String → String) (l : List Char)
    (h : hasPlaceholder l = false) : scanTemplate subst l = l :=
  scanGo_id subst l.length l h

/-- A preserved slot value is stored unchanged by the re-parse step. -/
theorem slotResult_of_preserved {v : JSVal} (h : slotPreserved v = true) :
    slotResult v = some v := by
  unfold slotPreserved at h
  unfold slotResult
  cases hp : parseJSONStr (jsToString v) with
  | some w =>
      rw [hp] at h
      rw [beq_iff_eq.mp h]
  | none =>
      rw [hp] at h
      simp only [Bool.and_eq_true, Bool.not_eq_true'] at h
      rw [if_neg]
      intro hc
      cases hc with
      | inl hc => rw [hc] at h; simp at h
      | inr hc => rw [hc] at h; simp at h

/-- Assembling all-kept slots returns the original element list. -/
theorem trimTrailingNones_map_some (l : List JSVal) :
    trimTrailingNones (l.map some) = l := by
  unfold trimTrailingNones
  rw [← List.map_reverse]
  have h : ∀ m : List JSVal, (m.map some).dropWhile Option.isNone = m.map some := by
    intro m
    cases m with
    | nil => rfl
    | cons a m' => simp [List.dropWhile]
  rw [h, ← List.map_reverse, List.reverse_reverse]
  simp [Function.comp_def]

mutual

/-- `interpolate` is the identity on good templates. -/
theorem interp_id_val : ∀ (T : JSVal) (M : List (String × JSVal)),
    goodTemplate T = true → interpolate T M = T
  | .undef, _, _ => rfl
  | .null, _, _ => rfl
  | .bool _, _, _ => rfl
  | .num _, _, _ => rfl
  | .str s, M, h => by
      have hs : hasPlaceholder s.data = false := by
        simpa [goodTemplate] using h
      show JSVal.str (replacePlaceholders s M) = JSVal.str s
      unfold replacePlaceholders
      rw [scanTemplate_id _ _ hs]
  | .arr l, M, h => by
      show JSVal.arr (trimTrailingNones (interpElems l M)) = JSVal.arr l
      rw [interp_id_elems l M (by simpa [goodTemplate] using h),
        trimTrailingNones_map_some]
  | .obj kvs, M, h => by
      show JSVal.obj (interpFields kvs M) = JSVal.obj kvs
      rw [interp_id_fields kvs M (by simpa [goodTemplate] using h)]

/-- Array slots of a good template are all kept unchanged. -/
theorem interp_id_elems : ∀ (l : List JSVal) (M : List (String × JSVal)),
    goodElems l = true → interpElems l M = l.map some
  | [], _, _ => rfl
  | v :: rest, M, h => by
      simp only [goodElems, Bool.and_eq_true] at h
      obtain ⟨⟨h1, h2⟩, h3⟩ := h
      simp only [interpElems, List.map_cons]
      rw [interp_id_val v M h1, slotResult_of_preserved h2,
        interp_id_elems rest M h3]

/-- Mapping slots of a good template are all kept unchanged. -/
theorem interp_id_fields : ∀ (kvs : List (String × JSVal))
    (M : List (String × JSVal)), goodFields kvs = true → interpFields kvs M = kvs
  | [], _, _ => rfl
  | (k, v) :: rest, M, h => by
      simp only [goodFields, Bool.and_eq_true] at h
      obtain ⟨⟨h1, h2⟩, h3⟩ := h
      simp only [interpFields]
      rw [interp_id_val v M h1, slotResult_of_preserved h2,
        interp_id_fields rest M h3]

end

/-- C2 counterexample: the template `{a: "1"}` contains no placeholder,
yet `interpolate({a: "1"}, {})` re-parses the slot string `"1"` as JSON
and yields `{a: 1}`, so the identity law fails as stated. -/
theorem C2_counterexample :
    hasPlaceholder "1".data = false ∧
    interpolate (.obj [("a", .str "1")]) [] = .obj [("a", .num 1)] ∧
    interpolate (.obj [("a", .str "1")]) [] ≠ .obj [("a", .str "1")] := by
  refine ⟨rfl, rfl, ?_⟩
  intro h
  rw [show interpolate (.obj [("a", .str "1")]) [] = .obj [("a", .num 1)] from rfl] at h
  simp at h

/-- C2 amended: `interpolate(T, M)` returns `T` unchanged for every model
M and every placeholder-free template T whose container slots additionally
survive the opportunistic re-parse step — i.e. no slot holds `undefined`,
an empty string, a string that is valid JSON, or a value (such as the
array `[1]`) whose string coercion is valid JSON text different from the
value.  Top-level strings need only be placeholder-free. -/
theorem C2_interpolate_identity (T : JSVal) (M : List (String × JSVal))
    (h : goodTemplate T = true) : interpolate T M = T :=
  interp_id_val T M h

/-- Witness for C2 amended on a nested placeholder-free template. -/
theorem C2_interpolate_identity_witness :
    interpolate (.obj [("pass", .bool true), ("test", .num 1),
      ("msg", .str "no placeholders here"), ("tags", .arr [.str "x y", .str "z w"])])
      [("k", .str "v")] =
    .obj [("pass", .bool true), ("test", .num 1),
      ("msg", .str "no placeholders here"), ("tags", .arr [.str "x y", .str "z w"])] :=
  C2_interpolate_identity _ [("k", .str "v")] rfl

/-- C10: a placeholder whose model value is present but falsy substitutes
as the empty string (the lookup is `model[br] || ''`); in particular
`interpolate("n={{n}}", {n: 0})` yields `"n="`.  (`NaN`, the remaining
falsy value, is outside the integer number model.) -/
theorem C10_falsy_substitution (v : JSVal) (h : falsy v = true) :
    interpolate (.str "n=\x7b\x7bn\x7d\x7d") [("n", v)] = .str "n=" ∧
    interpolate (.str "n=\x7b\x7bn\x7d\x7d") [("n", .num 0)] = .str "n=" := by
  have hsub : ∀ key, substPlaceholder [("n", v)] key
      = substPlaceholder [("n", .num 0)] key := by
    intro key
    by_cases hk : "n" = key
    · subst hk
      have e1 : substPlaceholder [("n", v)] "n" = "" := by
        unfold substPlaceholder
        simp [jsLookup, h, jsToString]
      rw [e1]
      rfl
    · simp only [substPlaceholder, jsLookup, if_neg hk]
  have hcong := scanTemplate_congr hsub ("n=\x7b\x7bn\x7d\x7d").data
  constructor
  · calc interpolate (.str "n=\x7b\x7bn\x7d\x7d") [("n", v)]
        = .str (String.mk (scanTemplate (substPlaceholder [("n", v)])
            ("n=\x7b\x7bn\x7d\x7d").data)) := rfl
      _ = .str (String.mk (scanTemplate (substPlaceholder [("n", .num 0)])
            ("n=\x7b\x7bn\x7d\x7d").data)) := by rw [hcong]
      _ = .str "n=" := rfl
  · rfl

/-- Witness for C10 at the falsy model value `0`. -/
theorem C10_falsy_substitution_witness :
    interpolate (.str "n=\x7b\x7bn\x7d\x7d") [("n", .num 0)] = .str "n=" :=
  (C10_falsy_substitution (.num 0) rfl).1

/-- C8: on string templates `interpolate` is exactly the spec's global
replace — every `{{identifier}}` becomes the looked-up value stringified,
objects/arrays as JSON text and missing keys as the empty string — for
models whose bound values are truthy (falsy present values are the subject
of C10); and `interpolate("Test: {{x}}", {})` yields `"Test: "`. -/
theorem C8_string_interpolation (s : String) (model : List (String × JSVal))
    (ht : ∀ k v, jsLookup model k = some v → falsy v = false) :
    interpolate (.str s) model =
      .str (String.mk (scanTemplate (specSubst model) s.data)) ∧
    interpolate (.str "Test: \x7b\x7bx\x7d\x7d") [] = .str "Test: " := by
  have hsub : ∀ key, substPlaceholder model key = specSubst model key := by
    intro key
    cases hl : jsLookup model key with
    | none =>
        simp only [substPlaceholder, specSubst, hl]
        rfl
    | some v =>
        have hf := ht key v hl
        simp only [substPlaceholder, specSubst, hl, Option.getD_some]
        rw [hf]
        cases v <;> rfl
  refine ⟨?_, rfl⟩
  calc interpolate (.str s) model
      = .str (String.mk (scanTemplate (substPlaceholder model) s.data)) := rfl
    _ = .str (String.mk (scanTemplate (specSubst model) s.data)) := by
        rw [scanTemplate_congr hsub]

/-- Witness for C8 on a truthy model. -/
theorem C8_string_interpolation_witness :
    interpolate (.str "Hi \x7b\x7bname\x7d\x7d") [("name", .str "Bob")] =
      .str (String.mk (scanTemplate (specSubst [("name", .str "Bob")])
        ("Hi \x7b\x7bname\x7d\x7d").data)) :=
  (C8_string_interpolation "Hi \x7b\x7bname\x7d\x7d" [("name", .str "Bob")]
    (by
      intro k v h
      by_cases hk : "name" = k
      · simp only [jsLookup, if_pos hk] at h
        injection h with h
        rw [← h]
        rfl
      · simp [jsLookup, hk] at h)).1

/-- C5: one `FileTransport.log` call issues exactly one write of the
formatted line `"<timestamp> [<category>] <level>: <msg>\n"`, followed by
exactly one close; the close is the final event even when the write
rejects, and a write rejection is reported via the diagnostic channel
rather than propagated (the trace function is total). -/
theorem C5_file_write_close (config params : List (String × JSVal))
    (now ts cat lvl m : String) (werr : Option String)
    (hnd : (params.map Prod.fst).Nodup) (htsne : ts ≠ "")
    (hts : jsLookup params "timestamp" = some (.str ts))
    (hcat : jsLookup params "category" = some (.str cat))
    (hlvl : jsLookup params "level" = some (.str lvl))
    (hmsg : jsLookup params "msg" = some (.str m)) :
    ((fileLog config params now werr).filter FileEvent.isWrite) =
      [.write (ts ++ " [" ++ cat ++ "] " ++ lvl ++ ": " ++ m ++ "\n")] ∧
    ((fileLog config params now werr).filter FileEvent.isClose) = [.close] ∧
    (fileLog config params now werr).getLast? = some .close ∧
    (∀ e, werr = some e → FileEvent.errorLog e ∈ fileLog config params now werr) := by
  have hline : fileLine (jsSpread config params) now =
      ts ++ " [" ++ cat ++ "] " ++ lvl ++ ": " ++ m ++ "\n" := by
    have h1 : tmplVal (jsSpread config params) "timestamp" = .str ts := by
      simp [tmplVal, jsLookup_jsSpread_of_some config hnd hts]
    have h2 : tmplVal (jsSpread config params) "category" = .str cat := by
      simp [tmplVal, jsLookup_jsSpread_of_some config hnd hcat]
    have h3 : tmplVal (jsSpread config params) "level" = .str lvl := by
      simp [tmplVal, jsLookup_jsSpread_of_some config hnd hlvl]
    have h4 : tmplVal (jsSpread config params) "msg" = .str m := by
      simp [tmplVal, jsLookup_jsSpread_of_some config hnd hmsg]
    have hfa : falsy (.str ts) = false := by simp [falsy, htsne]
    rw [fileLine, h1, h2, h3, h4, hfa]
    rfl
  cases werr with
  | none =>
      refine ⟨?_, ?_, rfl, ?_⟩
      · simp [fileLog, hline, List.filter, FileEvent.isWrite]
      · simp [fileLog, List.filter, FileEvent.isClose, FileEvent.isWrite]
      · intro e he; cases he
  | some e0 =>
      refine ⟨?_, ?_, rfl, ?_⟩
      · simp [fileLog, hline, List.filter, FileEvent.isWrite]
      · simp [fileLog, List.filter, FileEvent.isClose, FileEvent.isWrite]
      · intro e he
        injection he with he
        subst he
        simp [fileLog]

/-- Witness for C5 with a rejecting write. -/
theorem C5_file_write_close_witness :
    ((fileLog [] [("timestamp", .str "T"), ("category", .str "c.js"),
        ("level", .str "info"), ("msg", .str "hi")] "NOW"
        (some "boom")).filter FileEvent.isWrite) =
      [.write ("T" ++ " [" ++ "c.js" ++ "] " ++ "info" ++ ": " ++ "hi" ++ "\n")] ∧
    ((fileLog [] [("timestamp", .str "T"), ("category", .str "c.js"),
        ("level", .str "info"), ("msg", .str "hi")] "NOW"
        (some "boom")).filter FileEvent.isClose) = [.close] :=
  have h := C5_file_write_close [] [("timestamp", .str "T"), ("category", .str "c.js"),
    ("level", .str "info"), ("msg", .str "hi")] "NOW" "T" "c.js" "info" "hi"
    (some "boom") (by simp) (by simp) rfl rfl rfl rfl
  ⟨h.1, h.2.1⟩

/-- C6: an `APITransport.log` call always returns normally (it never
throws or rejects to its caller): a network error is caught and reported
via `console.error`, and every response — successful or not — is reported
via `console.debug`. -/
theorem C6_api_never_throws (config record : List (String × JSVal))
    (fres : Except String ApiResponse) :
    (∃ tr, apiLog config record fres = .ok tr) ∧
    (∀ e, fres = .error e →
      ∃ req, apiLog config record fres = .ok [req, .errorLog e]) ∧
    (∀ resp, fres = .ok resp →
      ∃ req, apiLog config record fres = .ok [req, .debugLog resp]) := by
  cases fres with
  | ok resp =>
      refine ⟨⟨_, rfl⟩, ?_, ?_⟩
      · intro e he; cases he
      · intro r hr
        injection hr with hr
        subst hr
        exact ⟨_, rfl⟩
  | error e =>
      refine ⟨⟨_, rfl⟩, ?_, ?_⟩
      · intro e' he
        injection he with he
        subst he
        exact ⟨_, rfl⟩
      · intro r hr; cases hr

/-- Witness for C6: a failed fetch on a concrete configuration is reported
and the call still returns normally. -/
theorem C6_api_never_throws_witness :
    ∃ req, apiLog [("url", .str "https://x/logs"), ("method", .str "POST")]
      [("msg", .str "hi")] (.error "network down") =
        .ok [req, .errorLog "network down"] :=
  (C6_api_never_throws [("url", .str "https://x/logs"), ("method", .str "POST")]
    [("msg", .str "hi")] (.error "network down")).2.1 "network down" rfl

/-! ### Decimal printing reads back -/

theorem natToDigitsGo_eq_of_le : ∀ (n fuel fuel' : Nat), n ≤ fuel → n ≤ fuel' →
    natToDigitsGo fuel n = natToDigitsGo fuel' n := by
  intro n
  induction n using Nat.strong_induction_on with
  | _ n ih =>
      intro fuel fuel' hf hf'
      match fuel, fuel' with
      | 0, 0 => rfl
      | 0, f' + 1 =>
          have hn : n = 0 := by omega
          subst hn
          simp [natToDigitsGo]
      | f + 1, 0 =>
          have hn : n = 0 := by omega
          subst hn
          simp [natToDigitsGo]
      | f + 1, f' + 1 =>
          simp only [natToDigitsGo]
          by_cases h10 : n < 10
          · rw [if_pos h10, if_pos h10]
          · rw [if_neg h10, if_neg h10,
              ih (n / 10) (by omega) f f' (by omega) (by omega)]

/-- The defining recurrence of `natToDigits`. -/
theorem natToDigits_eq (n : Nat) : natToDigits n =
    if n < 10 then [decDigit n]
    else natToDigits (n / 10) ++ [decDigit (n % 10)] := by
  by_cases h10 : n < 10
  · rw [if_pos h10]
    unfold natToDigits
    match n, h10 with
    | 0, _ => rfl
    | m + 1, h => simp [natToDigitsGo, h]
  · rw [if_neg h10]
    unfold natToDigits
    match n, h10 with
    | m + 1, h =>
        simp only [natToDigitsGo, if_neg h]
        rw [natToDigitsGo_eq_of_le ((m + 1) / 10) m ((m + 1) / 10)
          (by omega) (by omega)]

theorem decDigit_isDigit : ∀ m, m < 10 → (decDigit m).isDigit = true := by decide

theorem decDigit_toNat : ∀ m, m < 10 → (decDigit m).toNat = 48 + m := by decide

theorem decDigit_ne_zero : ∀ m, m < 10 → 0 < m → decDigit m ≠ '0' := by decide

theorem natToDigits_ne_nil (n : Nat) : natToDigits n ≠ [] := by
  rw [natToDigits_eq]
  by_cases h10 : n < 10
  · simp [h10]
  · simp [h10]

theorem natToDigits_all_digits (n : Nat) :
    ∀ c ∈ natToDigits n, c.isDigit = true := by
  induction n using Nat.strong_induction_on with
  | _ n ih =>
      rw [natToDigits_eq]
      by_cases h10 : n < 10
      · simp only [if_pos h10, List.mem_singleton]
        intro c hc
        subst hc
        exact decDigit_isDigit n h10
      · simp only [if_neg h10, List.mem_append, List.mem_singleton]
        intro c hc
        rcases hc with hc | hc
        · exact ih (n / 10) (by omega) c hc
        · subst hc
          exact decDigit_isDigit _ (by omega)

theorem natToDigits_head_pos (n : Nat) (hn : 0 < n) :
    ∃ c t, natToDigits n = c :: t ∧ c.isDigit = true ∧ c ≠ '0' := by
  induction n using Nat.strong_induction_on with
  | _ n ih =>
      rw [natToDigits_eq]
      by_cases h10 : n < 10
      · exact ⟨decDigit n, [], by simp [h10], decDigit_isDigit n h10,
          decDigit_ne_zero n h10 hn⟩
      · obtain ⟨c, t, hct, hd, h0⟩ := ih (n / 10) (by omega) (by omega)
        exact ⟨c, t ++ [decDigit (n % 10)], by simp [h10, hct], hd, h0⟩

theorem foldl_natToDigits (n : Nat) : ∀ acc : Nat,
    (natToDigits n).foldl (fun a c => a * 10 + (c.toNat - 48)) acc =
      acc * 10 ^ (natToDigits n).length + n := by
  induction n using Nat.strong_induction_on with
  | _ n ih =>
      intro acc
      rw [natToDigits_eq]
      by_cases h10 : n < 10
      · simp only [if_pos h10, List.foldl_cons, List.foldl_nil,
          List.length_singleton, pow_one]
        rw [decDigit_toNat n h10]
        omega
      · simp only [if_neg h10, List.foldl_append, List.foldl_cons,
          List.foldl_nil, List.length_append, List.length_singleton]
        rw [ih (n / 10) (by omega) acc, decDigit_toNat (n % 10) (by omega)]
        rw [pow_succ]
        have h48 : 48 + n % 10 - 48 = n % 10 := by omega
        rw [h48]
        ring_nf
        omega

theorem takeDigitsAcc_append : ∀ (ds : List Char), (∀ c ∈ ds, c.isDigit = true) →
    ∀ (acc : Nat) (rest : List Char), takeDigitsAcc acc (ds ++ rest) =
      takeDigitsAcc (ds.foldl (fun a c => a * 10 + (c.toNat - 48)) acc) rest
  | [], _, _, _ => rfl
  | d :: ds, h, acc, rest => by
      have hd : d.isDigit = true := h d (List.mem_cons_self d ds)
      simp only [List.cons_append, takeDigitsAcc, hd, if_true, List.foldl_cons]
      exact takeDigitsAcc_append ds (fun c hc => h c (List.mem_cons_of_mem d hc)) _ rest

theorem takeDigitsAcc_stop (acc : Nat) (rest : List Char)
    (h : numStopOk rest = true) : takeDigitsAcc acc rest = (acc, rest) := by
  cases rest with
  | nil => rfl
  | cons c t =>
      simp only [numStopOk, Bool.not_eq_true', Bool.or_eq_false_iff] at h
      simp [takeDigitsAcc, h.1.1]

theorem parseIntNat_digits (n : Nat) (rest : List Char)
    (hrest : numStopOk rest = true) :
    parseIntNat (natToDigits n ++ rest) = some (n, rest) := by
  rcases Nat.eq_zero_or_pos n with hn | hn
  · subst hn
    show parseIntNat ('0' :: rest) = some (0, rest)
    simp [parseIntNat, hrest]
  · obtain ⟨c, t, hct, hd, h0⟩ := natToDigits_head_pos n hn
    have htd : ∀ x ∈ t, x.isDigit = true := by
      intro x hx
      exact natToDigits_all_digits n x (by rw [hct]; exact List.mem_cons_of_mem c hx)
    rw [hct]
    simp only [List.cons_append, parseIntNat, h0, if_false, hd, if_true]
    rw [takeDigitsAcc_append t htd _ rest, takeDigitsAcc_stop _ _ hrest]
    have hfold : t.foldl (fun a c => a * 10 + (c.toNat - 48)) (c.toNat - 48) = n := by
      have h1 := foldl_natToDigits n 0
      rw [hct] at h1
      simpa using h1
    simp [hfold, hrest]

theorem parseNumber_int (i : Int) (rest : List Char)
    (hrest : numStopOk rest = true) :
    parseNumber (intToChars i ++ rest) = some (.num i, rest) := by
  by_cases hi : i < 0
  · have : intToChars i = '-' :: natToDigits i.natAbs := by
      simp [intToChars, hi]
    rw [this]
    simp only [List.cons_append, parseNumber, if_pos rfl]
    rw [parseIntNat_digits _ rest hrest]
    simp only [Option.map_some']
    have hval : (-(i.natAbs : Int)) = i := by omega
    rw [hval]
    simp
  · have hrep : intToChars i = natToDigits i.toNat := by
      simp [intToChars, hi]
    rw [hrep]
    obtain ⟨c, t, hct, hd, _⟩ :
        ∃ c t, natToDigits i.toNat = c :: t ∧ c.isDigit = true ∧
          (0 < i.toNat → c ≠ '0') := by
      rcases Nat.eq_zero_or_pos i.toNat with h0 | h0
      · rw [h0]
        exact ⟨'0', [], rfl, rfl, by omega⟩
      · obtain ⟨c, t, hct, hd, hne⟩ := natToDigits_head_pos i.toNat h0
        exact ⟨c, t, hct, hd, fun _ => hne⟩
    rw [hct]
    have hcm : c ≠ '-' := by
      intro he
      rw [he] at hd
      exact absurd hd (by decide)
    simp only [List.cons_append, parseNumber, hcm, if_false]
    rw [← List.cons_append, ← hct, parseIntNat_digits _ rest hrest]
    simp only [Option.map_some']
    have hval : ((i.toNat : Int)) = i := by omega
    rw [hval]

/-! ### String escaping reads back -/

theorem hexVal_hexDigitChar : ∀ m, m < 16 → hexVal (hexDigitChar m) = some m := by
  decide

/-- Each escape chunk costs at most its own length in parser steps. -/
theorem escCost_le (cs : List Char) : escCost cs ≤ (escapeList cs).length := by
  induction cs with
  | nil => simp [escCost, escapeList]
  | cons c rest ih =>
      have h1 : 1 ≤ (escapeChar c).length := by
        unfold escapeChar
        repeat' split
        all_goals simp
      simp only [escCost, escapeList, List.length_append]
      have := min_le_left (escapeChar c).length 2
      omega

theorem parseStringBody_backslash (f : Nat) (T acc : List Char) :
    parseStringBody (f + 1) ('\\' :: T) acc = parseStringEscape f T acc := by
  simp [parseStringBody]

theorem parseStringBody_plain (f : Nat) (c : Char) (T acc : List Char)
    (h1 : c ≠ '"') (h2 : c ≠ '\\') (h3 : ¬ c.toNat < 32) :
    parseStringBody (f + 1) (c :: T) acc = parseStringBody f T (c :: acc) := by
  simp only [parseStringBody]
  rw [if_neg h1, if_neg h2, if_neg h3]

theorem parseStringEscape_named (f : Nat) (e d : Char) (T acc : List Char)
    (h : (e = '"' ∧ d = '"') ∨ (e = '\\' ∧ d = '\\') ∨ (e = '/' ∧ d = '/') ∨
         (e = 'n' ∧ d = '\n') ∨ (e = 't' ∧ d = '\t') ∨ (e = 'r' ∧ d = '\r') ∨
         (e = 'b' ∧ d = Char.ofNat 8) ∨ (e = 'f' ∧ d = Char.ofNat 12)) :
    parseStringEscape (f + 1) (e :: T) acc = parseStringBody f T (d :: acc) := by
  rcases h with h | h | h | h | h | h | h | h <;> rw [h.1, h.2] <;>
    simp [parseStringEscape]

theorem parseStringEscape_u (f : Nat) (T acc : List Char) :
    parseStringEscape (f + 1) ('u' :: T) acc =
      (match parseHex4 T with
       | some p => parseStringBody f p.2 (p.1 :: acc)
       | none => none) := by
  simp [parseStringEscape]

/-- Every escape chunk is the character itself, two characters, or a
six-character `\u00XX` sequence. -/
theorem escapeChar_cases (c : Char) :
    escapeChar c = [c] ∨ (escapeChar c).length = 2 ∨ (escapeChar c).length = 6 := by
  unfold escapeChar
  repeat' split
  all_goals simp

/-- The escaped form of a string body followed by a closing quote parses
back to the original string. -/
theorem parseStringBody_escapeList : ∀ (cs acc rest : List Char) (fuel : Nat),
    escCost cs < fuel →
    parseStringBody fuel (escapeList cs ++ '"' :: rest) acc =
      some (String.mk (acc.reverse ++ cs), rest)
  | [], acc, rest, fuel, h => by
      obtain ⟨f, rfl⟩ : ∃ f, fuel = f + 1 := ⟨fuel - 1, by omega⟩
      simp [escapeList, parseStringBody]
  | c :: cs, acc, rest, fuel, h => by
      have hch : escapeList (c :: cs) = escapeChar c ++ escapeList cs := rfl
      have hcost : min (escapeChar c).length 2 + escCost cs < fuel := h
      rw [hch, List.append_assoc]
      by_cases hesc : escapeChar c = [c]
      · have hplain : c ≠ '"' ∧ c ≠ '\\' ∧ ¬ c.toNat < 32 := by
          refine ⟨?_, ?_, ?_⟩
          · intro e
            rw [e] at hesc
            exact absurd hesc (by decide)
          · intro e
            rw [e] at hesc
            exact absurd hesc (by decide)
          · intro e3
            have hlt : ∀ n, n < 32 → (escapeChar (Char.ofNat n)).length ≠ 1 := by
              decide
            have hone : (escapeChar c).length = 1 := by rw [hesc]; rfl
            rw [← Char.ofNat_toNat c] at hone
            exact hlt c.toNat e3 hone
        obtain ⟨f, rfl⟩ : ∃ f, fuel = f + 1 := ⟨fuel - 1, by omega⟩
        rw [hesc, List.singleton_append,
          parseStringBody_plain f c _ acc hplain.1 hplain.2.1 hplain.2.2,
          parseStringBody_escapeList cs _ rest f (by
            rw [hesc] at hcost
            simp at hcost
            omega)]
        simp
      · have hmin : min (escapeChar c).length 2 = 2 := by
          rcases escapeChar_cases c with h' | h' | h'
          · exact absurd h' hesc
          · omega
          · omega
        obtain ⟨f, rfl⟩ : ∃ f, fuel = f + 1 + 1 := ⟨fuel - 2, by omega⟩
        have hrec : parseStringBody f (escapeList cs ++ '"' :: rest) (c :: acc) =
            some (String.mk ((c :: acc).reverse ++ cs), rest) :=
          parseStringBody_escapeList cs (c :: acc) rest f (by omega)
        have hfin : String.mk ((c :: acc).reverse ++ cs) =
            String.mk (acc.reverse ++ c :: cs) := by
          simp
        by_cases e1 : c = '"'
        · subst e1
          rw [show escapeChar '"' = ['\\', '"'] from rfl, List.cons_append,
            List.cons_append, List.nil_append, parseStringBody_backslash,
            parseStringEscape_named f '"' '"' _ acc (Or.inl ⟨rfl, rfl⟩)]
          rw [hrec, hfin]
        · by_cases e2 : c = '\\'
          · subst e2
            rw [show escapeChar '\\' = ['\\', '\\'] from rfl, List.cons_append,
              List.cons_append, List.nil_append, parseStringBody_backslash,
              parseStringEscape_named f '\\' '\\' _ acc (Or.inr (Or.inl ⟨rfl, rfl⟩))]
            rw [hrec, hfin]
          · by_cases e4 : c = '\n'
            · subst e4
              rw [show escapeChar '\n' = ['\\', 'n'] from rfl, List.cons_append,
                List.cons_append, List.nil_append, parseStringBody_backslash,
                parseStringEscape_named f 'n' '\n' _ acc (Or.inr (Or.inr (Or.inr (Or.inl ⟨rfl, rfl⟩))))]
              rw [hrec, hfin]
            · by_cases e5 : c = '\t'
              · subst e5
                rw [show escapeChar '\t' = ['\\', 't'] from rfl, List.cons_append,
                  List.cons_append, List.nil_append, parseStringBody_backslash,
                  parseStringEscape_named f 't' '\t' _ acc (Or.inr (Or.inr (Or.inr (Or.inr (Or.inl ⟨rfl, rfl⟩)))))]
                rw [hrec, hfin]
              · by_cases e6 : c = '\r'
                · subst e6
                  rw [show escapeChar '\r' = ['\\', 'r'] from rfl, List.cons_append,
                    List.cons_append, List.nil_append, parseStringBody_backslash,
                    parseStringEscape_named f 'r' '\r' _ acc (Or.inr (Or.inr (Or.inr (Or.inr (Or.inr (Or.inl ⟨rfl, rfl⟩))))))]
                  rw [hrec, hfin]
                · by_cases e7 : c.toNat = 8
                  · have hc : c = Char.ofNat 8 := by rw [← e7, Char.ofNat_toNat]
                    have hchunk : escapeChar c = ['\\', 'b'] := by
                      unfold escapeChar
                      rw [if_neg e1, if_neg e2, if_neg e4, if_neg e5, if_neg e6,
                        if_pos e7]
                    rw [hchunk, List.cons_append, List.cons_append,
                      List.nil_append, parseStringBody_backslash,
                      parseStringEscape_named f 'b' (Char.ofNat 8) _ acc (Or.inr (Or.inr (Or.inr (Or.inr (Or.inr (Or.inr (Or.inl ⟨rfl, rfl⟩)))))))]
                    rw [← hc, hrec, hfin]
                  · by_cases e8 : c.toNat = 12
                    · have hc : c = Char.ofNat 12 := by rw [← e8, Char.ofNat_toNat]
                      have hchunk : escapeChar c = ['\\', 'f'] := by
                        unfold escapeChar
                        rw [if_neg e1, if_neg e2, if_neg e4, if_neg e5, if_neg e6,
                          if_neg e7, if_pos e8]
                      rw [hchunk, List.cons_append, List.cons_append,
                        List.nil_append, parseStringBody_backslash,
                        parseStringEscape_named f 'f' (Char.ofNat 12) _ acc (Or.inr (Or.inr (Or.inr (Or.inr (Or.inr (Or.inr (Or.inr ⟨rfl, rfl⟩)))))))]
                      rw [← hc, hrec, hfin]
                    · have e3 : c.toNat < 32 := by
                        by_contra e3
                        exact hesc (by
                          unfold escapeChar
                          rw [if_neg e1, if_neg e2, if_neg e4, if_neg e5,
                            if_neg e6, if_neg e7, if_neg e8, if_neg e3])
                      have hchunk : escapeChar c = ['\\', 'u', '0', '0',
                          hexDigitChar (c.toNat / 16), hexDigitChar (c.toNat % 16)] := by
                        unfold escapeChar
                        rw [if_neg e1, if_neg e2, if_neg e4, if_neg e5, if_neg e6,
                          if_neg e7, if_neg e8, if_pos e3]
                      rw [hchunk]
                      rw [show (['\\', 'u', '0', '0', hexDigitChar (c.toNat / 16),
                          hexDigitChar (c.toNat % 16)] ++
                          (escapeList cs ++ '"' :: rest)) =
                        '\\' :: 'u' :: ('0' :: '0' :: hexDigitChar (c.toNat / 16) ::
                          hexDigitChar (c.toNat % 16) ::
                          (escapeList cs ++ '"' :: rest)) from rfl]
                      rw [parseStringBody_backslash, parseStringEscape_u]
                      have hhex : parseHex4 ('0' :: '0' :: hexDigitChar (c.toNat / 16) ::
                          hexDigitChar (c.toNat % 16) :: (escapeList cs ++ '"' :: rest)) =
                          some (c, escapeList cs ++ '"' :: rest) := by
                        simp only [parseHex4]
                        rw [show hexVal '0' = some 0 from rfl,
                          hexVal_hexDigitChar (c.toNat / 16) (by omega),
                          hexVal_hexDigitChar (c.toNat % 16) (by omega)]
                        have hv : ((0 * 16 + 0) * 16 + c.toNat / 16) * 16 +
                            c.toNat % 16 = c.toNat := by omega
                        simp only [hv, Char.ofNat_toNat]
                      rw [hhex]
                      simp only []
                      rw [hrec, hfin]

/-! ### Serialized values parse back -/

theorem skipWs_cons {c : Char} (t : List Char) (h : isWsChar c = false) :
    skipWs (c :: t) = c :: t := by
  simp [skipWs, h]

theorem stringMk_data (s : String) : String.mk s.data = s := rfl

theorem isDigit_ne {c : Char} (h : c.isDigit = true) {x : Char}
    (hx : x.isDigit = false) : c ≠ x := by
  intro e
  rw [e] at h
  rw [h] at hx
  cases hx

theorem isDigit_not_ws {c : Char} (h : c.isDigit = true) : isWsChar c = false := by
  have n1 : c ≠ ' ' := isDigit_ne h (by decide)
  have n2 : c ≠ '\t' := isDigit_ne h (by decide)
  have n3 : c ≠ '\n' := isDigit_ne h (by decide)
  have n4 : c ≠ '\r' := isDigit_ne h (by decide)
  simp [isWsChar, n1, n2, n3, n4]

theorem intToChars_head (i : Int) :
    ∃ c t, intToChars i = c :: t ∧ (c.isDigit = true ∨ c = '-') := by
  by_cases hi : i < 0
  · exact ⟨'-', natToDigits i.natAbs, by simp [intToChars, hi], Or.inr rfl⟩
  · cases hm : natToDigits i.toNat with
    | nil => exact absurd hm (natToDigits_ne_nil _)
    | cons c t =>
        refine ⟨c, t, by simp [intToChars, hi, hm], Or.inl ?_⟩
        exact natToDigits_all_digits i.toNat c (by rw [hm]; exact List.mem_cons_self c t)

/-- The serialization of any value starts with a non-whitespace character
that is not a closing bracket or brace. -/
theorem stringifyJSON_head (v : JSVal) :
    ∃ c t, stringifyJSON v = c :: t ∧ isWsChar c = false ∧ c ≠ ']' ∧ c ≠ '}' := by
  cases v with
  | undef => exact ⟨'n', _, rfl, by decide⟩
  | null => exact ⟨'n', _, rfl, by decide⟩
  | bool b => cases b <;> exact ⟨_, _, rfl, by decide⟩
  | num n =>
      obtain ⟨c, t, hct, hc⟩ := intToChars_head n
      refine ⟨c, t, hct, ?_, ?_, ?_⟩
      · rcases hc with hd | hm
        · exact isDigit_not_ws hd
        · rw [hm]; rfl
      · rcases hc with hd | hm
        · exact isDigit_ne hd (by decide)
        · rw [hm]; decide
      · rcases hc with hd | hm
        · exact isDigit_ne hd (by decide)
        · rw [hm]; decide
  | str s => exact ⟨'"', _, rfl, by decide⟩
  | arr l => exact ⟨'[', _, rfl, by decide⟩
  | obj kvs => exact ⟨'{', _, rfl, by decide⟩

theorem stringifyElems_cons (v : JSVal) (vs : List JSVal) :
    stringifyElems (v :: vs) =
      stringifyJSON v ++ (if vs = [] then [] else ',' :: stringifyElems vs) := by
  cases vs with
  | nil => simp [stringifyElems]
  | cons w ws => simp [stringifyElems]

theorem rep_ne_undef {v : JSVal} (h : jsonRepresentable v = true) : v ≠ .undef := by
  intro e
  rw [e] at h
  cases h

theorem stringifyFields_cons_rep (k : String) (v : JSVal)
    (kvs : List (String × JSVal)) (hv : v ≠ .undef) :
    stringifyFields ((k, v) :: kvs) =
      ('"' :: (escapeList k.data ++ '"' :: ':' :: stringifyJSON v)) ++
        (if stringifyFields kvs = [] then [] else ',' :: stringifyFields kvs) := by
  simp only [stringifyFields, if_neg hv]
  by_cases hr : stringifyFields kvs = [] <;> simp [hr]

theorem stringifyFields_ne_nil_rep (kvs : List (String × JSVal))
    (hne : kvs ≠ []) (hrep : repFields kvs = true) :
    stringifyFields kvs ≠ [] := by
  cases kvs with
  | nil => exact absurd rfl hne
  | cons kv rest =>
      obtain ⟨k, v⟩ := kv
      simp only [repFields, Bool.and_eq_true] at hrep
      rw [stringifyFields_cons_rep k v rest (rep_ne_undef hrep.1)]
      simp

mutual

/-- A serialized representable value parses back to itself, leaving the
rest of the input untouched. -/
theorem parseVal_stringify : ∀ (v : JSVal), jsonRepresentable v = true →
    ∀ (fuel : Nat) (rest : List Char), costVal v ≤ fuel → numStopOk rest = true →
    parseVal fuel (stringifyJSON v ++ rest) = some (v, rest)
  | .undef, hrep, _, _, _, _ => by cases hrep
  | .null, _, fuel, rest, hcost, _ => by
      obtain ⟨f, rfl⟩ : ∃ f, fuel = f + 1 :=
        ⟨fuel - 1, by simp [costVal] at hcost; omega⟩
      have hform : stringifyJSON .null ++ rest = 'n' :: 'u' :: 'l' :: 'l' :: rest := rfl
      rw [hform]
      simp [parseVal, skipWs, isWsChar]
  | .bool true, _, fuel, rest, hcost, _ => by
      obtain ⟨f, rfl⟩ : ∃ f, fuel = f + 1 :=
        ⟨fuel - 1, by simp [costVal] at hcost; omega⟩
      have hform : stringifyJSON (.bool true) ++ rest =
        't' :: 'r' :: 'u' :: 'e' :: rest := rfl
      rw [hform]
      simp [parseVal, skipWs, isWsChar]
  | .bool false, _, fuel, rest, hcost, _ => by
      obtain ⟨f, rfl⟩ : ∃ f, fuel = f + 1 :=
        ⟨fuel - 1, by simp [costVal] at hcost; omega⟩
      have hform : stringifyJSON (.bool false) ++ rest =
        'f' :: 'a' :: 'l' :: 's' :: 'e' :: rest := rfl
      rw [hform]
      simp [parseVal, skipWs, isWsChar]
  | .num n, _, fuel, rest, hcost, hrest => by
      obtain ⟨f, rfl⟩ : ∃ f, fuel = f + 1 :=
        ⟨fuel - 1, by simp [costVal] at hcost; omega⟩
      obtain ⟨c, t, hct, hc⟩ := intToChars_head n
      have hw : isWsChar c = false := by
        rcases hc with hd | hm
        · exact isDigit_not_ws hd
        · rw [hm]; rfl
      have hne : c ≠ 'n' ∧ c ≠ 't' ∧ c ≠ 'f' ∧ c ≠ '"' ∧ c ≠ '[' ∧ c ≠ '{' := by
        rcases hc with hd | hm
        · exact ⟨isDigit_ne hd (by decide), isDigit_ne hd (by decide),
            isDigit_ne hd (by decide), isDigit_ne hd (by decide),
            isDigit_ne hd (by decide), isDigit_ne hd (by decide)⟩
        · rw [hm]
          refine ⟨by decide, by decide, by decide, by decide, by decide, by decide⟩
      have hform : stringifyJSON (.num n) ++ rest = c :: (t ++ rest) := by
        show intToChars n ++ rest = c :: (t ++ rest)
        rw [hct, List.cons_append]
      rw [hform]
      simp only [parseVal]
      rw [skipWs_cons _ hw]
      simp only []
      rw [if_neg hne.1, if_neg hne.2.1, if_neg hne.2.2.1, if_neg hne.2.2.2.1,
        if_neg hne.2.2.2.2.1, if_neg hne.2.2.2.2.2]
      rw [← List.cons_append, ← hct, parseNumber_int n rest hrest]
  | .str s, _, fuel, rest, hcost, _ => by
      obtain ⟨f, rfl⟩ : ∃ f, fuel = f + 1 :=
        ⟨fuel - 1, by simp [costVal] at hcost; omega⟩
      have hform : stringifyJSON (.str s) ++ rest =
          '"' :: (escapeList s.data ++ '"' :: rest) := by
        show ('"' :: (escapeList s.data ++ ['"'])) ++ rest = _
        simp
      rw [hform]
      simp only [parseVal]
      rw [skipWs_cons _ (by decide)]
      simp only []
      simp only [reduceIte]
      rw [parseStringBody_escapeList s.data [] rest _ (by
        have h1 := escCost_le s.data
        simp only [List.length_append, List.length_cons]
        omega)]
      simp [stringMk_data]
  | .arr [], _, fuel, rest, hcost, _ => by
      obtain ⟨f, rfl⟩ : ∃ f, fuel = f + 1 :=
        ⟨fuel - 1, by simp [costVal] at hcost; omega⟩
      have hform : stringifyJSON (.arr []) ++ rest = '[' :: ']' :: rest := rfl
      rw [hform]
      simp [parseVal, skipWs, isWsChar]
  | .arr (v :: vs), hrep, fuel, rest, hcost, _ => by
      have hrep' : repElems (v :: vs) = true := by simpa [jsonRepresentable] using hrep
      obtain ⟨f, rfl⟩ : ∃ f, fuel = f + 1 :=
        ⟨fuel - 1, by simp [costVal] at hcost ⊢; omega⟩
      have hcf : costElems (v :: vs) ≤ f := by
        simp [costVal] at hcost
        simp [costElems] at hcost ⊢
        omega
      have hform : stringifyJSON (.arr (v :: vs)) ++ rest =
          '[' :: (stringifyElems (v :: vs) ++ ']' :: rest) := by
        show ('[' :: (stringifyElems (v :: vs) ++ [']'])) ++ rest = _
        simp
      rw [hform]
      obtain ⟨c0, t0, hct, hw, hbr, _⟩ := stringifyJSON_head v
      have hhead : stringifyElems (v :: vs) ++ ']' :: rest =
          c0 :: (t0 ++ (if vs = [] then [] else ',' :: stringifyElems vs) ++
            ']' :: rest) := by
        rw [stringifyElems_cons, hct]
        simp
      simp only [parseVal]
      rw [skipWs_cons _ (by decide)]
      simp only []
      simp only [reduceIte]
      rw [hhead, skipWs_cons _ hw]
      simp only []
      rw [if_neg hbr]
      rw [← hhead, parseElems_stringify (v :: vs) (by simp) hrep' f rest hcf]
      rfl
  | .obj [], _, fuel, rest, hcost, _ => by
      obtain ⟨f, rfl⟩ : ∃ f, fuel = f + 1 :=
        ⟨fuel - 1, by simp [costVal] at hcost; omega⟩
      have hform : stringifyJSON (.obj []) ++ rest = '{' :: '}' :: rest := rfl
      rw [hform]
      simp [parseVal, skipWs, isWsChar]
  | .obj ((k, v) :: kvs), hrep, fuel, rest, hcost, _ => by
      have hrep' : repFields ((k, v) :: kvs) = true := by
        simpa [jsonRepresentable] using hrep
      obtain ⟨f, rfl⟩ : ∃ f, fuel = f + 1 :=
        ⟨fuel - 1, by simp [costVal] at hcost ⊢; omega⟩
      have hcf : costFields ((k, v) :: kvs) ≤ f := by
        simp [costVal] at hcost
        simp [costFields] at hcost ⊢
        omega
      have hform : stringifyJSON (.obj ((k, v) :: kvs)) ++ rest =
          '{' :: (stringifyFields ((k, v) :: kvs) ++ '}' :: rest) := by
        show ('{' :: (stringifyFields ((k, v) :: kvs) ++ ['}'])) ++ rest = _
        simp
      rw [hform]
      have hv : v ≠ .undef := by
        simp only [repFields, Bool.and_eq_true] at hrep'
        exact rep_ne_undef hrep'.1
      have hhead : stringifyFields ((k, v) :: kvs) ++ '}' :: rest =
          '"' :: ((escapeList k.data ++ '"' :: ':' :: stringifyJSON v) ++
            (if stringifyFields kvs = [] then [] else ',' :: stringifyFields kvs) ++
            '}' :: rest) := by
        rw [stringifyFields_cons_rep k v kvs hv]
        simp
      simp only [parseVal]
      rw [skipWs_cons _ (by decide)]
      simp only []
      simp only [reduceIte]
      rw [hhead, skipWs_cons _ (by decide)]
      simp only []
      rw [if_neg (by decide)]
      rw [← hhead, parseFields_stringify ((k, v) :: kvs) (by simp) hrep' f rest hcf]
      rfl
  termination_by v => sizeOf v
  decreasing_by all_goals (simp_wf <;> omega)

/-- Serialized array elements followed by the closing bracket parse back. -/
theorem parseElems_stringify : ∀ (l : List JSVal), l ≠ [] → repElems l = true →
    ∀ (fuel : Nat) (rest : List Char), costElems l ≤ fuel →
    parseElems fuel (stringifyElems l ++ ']' :: rest) = some (l, rest)
  | [], hne, _, _, _, _ => absurd rfl hne
  | [v], _, hrep, fuel, rest, hcost => by
      have hv1 : jsonRepresentable v = true := by
        simpa [repElems] using hrep
      obtain ⟨f, rfl⟩ : ∃ f, fuel = f + 1 :=
        ⟨fuel - 1, by simp [costElems] at hcost; omega⟩
      have hcv : costVal v ≤ f := by
        simp [costElems] at hcost
        omega
      simp only [parseElems]
      rw [stringifyElems_cons]
      simp only [reduceIte, List.append_nil]
      rw [parseVal_stringify v hv1 f (']' :: rest) hcv rfl]
      simp only []
      rw [skipWs_cons _ (by decide)]
      simp only [reduceIte]
      rw [if_neg (by decide)]
  | v :: w :: ws, _, hrep, fuel, rest, hcost => by
      have hv1 : jsonRepresentable v = true := by
        simp only [repElems, Bool.and_eq_true] at hrep
        exact hrep.1
      have hrest : repElems (w :: ws) = true := by
        simp only [repElems, Bool.and_eq_true] at hrep ⊢
        exact hrep.2
      obtain ⟨f, rfl⟩ : ∃ f, fuel = f + 1 :=
        ⟨fuel - 1, by simp [costElems] at hcost; omega⟩
      have hcv : costVal v ≤ f := by
        simp [costElems] at hcost
        omega
      simp only [parseElems]
      rw [stringifyElems_cons]
      have hx : (stringifyJSON v ++
          (if w :: ws = [] then [] else ',' :: stringifyElems (w :: ws))) ++
          ']' :: rest =
          stringifyJSON v ++ (',' :: (stringifyElems (w :: ws) ++ ']' :: rest)) := by
        simp
      rw [hx, parseVal_stringify v hv1 f
        (',' :: (stringifyElems (w :: ws) ++ ']' :: rest)) hcv rfl]
      simp only []
      rw [skipWs_cons _ (by decide)]
      simp only [reduceIte]
      rw [parseElems_stringify (w :: ws) (by simp) hrest f rest (by
          simp [costElems] at hcost ⊢
          omega)]
  termination_by l => sizeOf l
  decreasing_by all_goals (simp_wf <;> omega)

/-- Serialized object members followed by the closing brace parse back. -/
theorem parseFields_stringify : ∀ (kvs : List (String × JSVal)), kvs ≠ [] →
    repFields kvs = true →
    ∀ (fuel : Nat) (rest : List Char), costFields kvs ≤ fuel →
    parseFields fuel (stringifyFields kvs ++ '}' :: rest) = some (kvs, rest)
  | [], hne, _, _, _, _ => absurd rfl hne
  | [(k, v)], _, hrep, fuel, rest, hcost => by
      have hv1 : jsonRepresentable v = true := by
        simpa [repFields] using hrep
      obtain ⟨f, rfl⟩ : ∃ f, fuel = f + 1 :=
        ⟨fuel - 1, by simp [costFields] at hcost; omega⟩
      have hcv : costVal v ≤ f := by
        simp [costFields] at hcost
        omega
      have hv : v ≠ .undef := rep_ne_undef hv1
      simp only [parseFields]
      rw [stringifyFields_cons_rep k v [] hv]
      have hx : (('"' :: (escapeList k.data ++ '"' :: ':' :: stringifyJSON v)) ++
          (if stringifyFields [] = [] then []
            else ',' :: stringifyFields [])) ++ '}' :: rest =
          '"' :: (escapeList k.data ++
            '"' :: (':' :: (stringifyJSON v ++ '}' :: rest))) := by
        simp [stringifyFields]
      rw [hx, skipWs_cons _ (by decide)]
      simp only [reduceIte]
      rw [parseStringBody_escapeList k.data []
        (':' :: (stringifyJSON v ++ '}' :: rest)) _ (by
          have h1 := escCost_le k.data
          simp only [List.length_append, List.length_cons]
          omega)]
      simp only []
      rw [skipWs_cons _ (by decide)]
      simp only [reduceIte]
      rw [parseVal_stringify v hv1 f ('}' :: rest) hcv rfl]
      simp only []
      rw [skipWs_cons _ (by decide)]
      simp only [reduceIte]
      rw [if_neg (by decide)]
      simp [stringMk_data]
  | (k, v) :: (k2, v2) :: kvs2, _, hrep, fuel, rest, hcost => by
      have hv1 : jsonRepresentable v = true := by
        simp only [repFields, Bool.and_eq_true] at hrep
        exact hrep.1
      have hrep2 : repFields ((k2, v2) :: kvs2) = true := by
        simp only [repFields, Bool.and_eq_true] at hrep ⊢
        exact hrep.2
      obtain ⟨f, rfl⟩ : ∃ f, fuel = f + 1 :=
        ⟨fuel - 1, by simp [costFields] at hcost; omega⟩
      have hcv : costVal v ≤ f := by
        simp [costFields] at hcost
        omega
      have hv : v ≠ .undef := rep_ne_undef hv1
      simp only [parseFields]
      rw [stringifyFields_cons_rep k v ((k2, v2) :: kvs2) hv]
      have hnil : stringifyFields ((k2, v2) :: kvs2) ≠ [] :=
        stringifyFields_ne_nil_rep _ (by simp) hrep2
      have hx : (('"' :: (escapeList k.data ++ '"' :: ':' :: stringifyJSON v)) ++
          (if stringifyFields ((k2, v2) :: kvs2) = [] then []
            else ',' :: stringifyFields ((k2, v2) :: kvs2))) ++ '}' :: rest =
          '"' :: (escapeList k.data ++
            '"' :: (':' :: (stringifyJSON v ++
              ',' :: (stringifyFields ((k2, v2) :: kvs2) ++ '}' :: rest)))) := by
        rw [if_neg hnil]
        simp
      rw [hx, skipWs_cons _ (by decide)]
      simp only [reduceIte]
      rw [parseStringBody_escapeList k.data []
        (':' :: (stringifyJSON v ++
          ',' :: (stringifyFields ((k2, v2) :: kvs2) ++ '}' :: rest))) _ (by
        have h1 := escCost_le k.data
        simp only [List.length_append, List.length_cons]
        omega)]
      simp only []
      rw [skipWs_cons _ (by decide)]
      simp only [reduceIte]
      rw [parseVal_stringify v hv1 f
        (',' :: (stringifyFields ((k2, v2) :: kvs2) ++ '}' :: rest)) hcv rfl]
      simp only []
      rw [skipWs_cons _ (by decide)]
      simp only [reduceIte]
      rw [parseFields_stringify ((k2, v2) :: kvs2) (by simp) hrep2 f rest (by
        simp [costFields] at hcost ⊢
        omega)]
      simp [stringMk_data]
  termination_by kvs => sizeOf kvs
  decreasing_by all_goals (simp_wf <;> omega)

end

mutual

/-- The fuel needed to parse a serialized representable value is at most
twice its serialized length. -/
theorem costVal_le_length : ∀ (v : JSVal), jsonRepresentable v = true →
    costVal v ≤ 2 * (stringifyJSON v).length
  | .undef, hrep => by cases hrep
  | .null, _ => by decide
  | .bool true, _ => by decide
  | .bool false, _ => by decide
  | .num n, _ => by
      obtain ⟨c, t, hct, _⟩ := intToChars_head n
      simp only [costVal, stringifyJSON, hct, List.length_cons]
      omega
  | .str s, _ => by
      simp only [costVal, stringifyJSON, List.length_cons, List.length_append]
      omega
  | .arr [], _ => by decide
  | .arr (v :: vs), hrep => by
      have h := costElems_le_length (v :: vs)
        (by simpa [jsonRepresentable] using hrep)
      simp only [costVal, stringifyJSON, List.length_cons, List.length_append]
      omega
  | .obj [], _ => by decide
  | .obj (kv :: kvs), hrep => by
      have h := costFields_le_length (kv :: kvs)
        (by simpa [jsonRepresentable] using hrep)
      simp only [costVal, stringifyJSON, List.length_cons, List.length_append]
      omega

/-- Fuel bound for serialized array elements. -/
theorem costElems_le_length : ∀ (l : List JSVal), repElems l = true →
    costElems l ≤ 2 * (stringifyElems l).length + 2
  | [], _ => by decide
  | [v], hrep => by
      have h := costVal_le_length v (by simpa [repElems] using hrep)
      simp only [costElems, stringifyElems]
      omega
  | v :: w :: ws, hrep => by
      have h1 : jsonRepresentable v = true := by
        simp only [repElems, Bool.and_eq_true] at hrep
        exact hrep.1
      have h2 : repElems (w :: ws) = true := by
        simp only [repElems, Bool.and_eq_true] at hrep ⊢
        exact hrep.2
      have hv := costVal_le_length v h1
      have hr := costElems_le_length (w :: ws) h2
      rw [stringifyElems_cons]
      simp only [costElems, if_neg (show ¬(w :: ws = []) by simp),
        List.length_append, List.length_cons]
      simp only [costElems] at hr
      omega

/-- Fuel bound for serialized object members. -/
theorem costFields_le_length : ∀ (kvs : List (String × JSVal)),
    repFields kvs = true → costFields kvs ≤ 2 * (stringifyFields kvs).length + 2
  | [], _ => by decide
  | (k, v) :: rest, hrep => by
      have h1 : jsonRepresentable v = true := by
        simp only [repFields, Bool.and_eq_true] at hrep
        exact hrep.1
      have h2 : repFields rest = true := by
        simp only [repFields, Bool.and_eq_true] at hrep
        exact hrep.2
      have hv := costVal_le_length v h1
      have hr := costFields_le_length rest h2
      rw [stringifyFields_cons_rep k v rest (rep_ne_undef h1)]
      by_cases hnil : stringifyFields rest = []
      · have hrestnil : rest = [] := by
          by_contra hne
          exact stringifyFields_ne_nil_rep rest hne h2 hnil
        subst hrestnil
        rw [if_pos hnil]
        simp only [costFields, List.append_nil, List.length_cons,
          List.length_append]
        omega
      · rw [if_neg hnil]
        simp only [costFields, List.length_append, List.length_cons]
        omega

end

/-- `JSON.parse` inverts `JSON.stringify` on every representable value. -/
theorem parseJSONStr_stringify (v : JSVal) (hrep : jsonRepresentable v = true) :
    parseJSONStr (String.mk (stringifyJSON v)) = some v := by
  have hc := costVal_le_length v hrep
  have hp := parseVal_stringify v hrep (2 * (stringifyJSON v).length + 2) []
    (by omega) rfl
  simp only [List.append_nil] at hp
  simp only [parseJSONStr, parseJSONChars, stringMk_data, hp]
  rfl

/-- The scanner finds the first `\x7d\x7d` after a run of capture
characters that contain no closing brace and no newline. -/
theorem findCloseAux_keys : ∀ (ds acc rest : List Char),
    (∀ c ∈ ds, c ≠ '}' ∧ isNlChar c = false) →
    findCloseAux acc (ds ++ '}' :: '}' :: rest) = some (acc.reverse ++ ds, rest)
  | [], acc, rest, _ => by
      simp [findCloseAux]
  | c :: ds, acc, rest, h => by
      have hc := h c (by simp)
      have hrec := findCloseAux_keys ds (c :: acc) rest
        (fun x hx => h x (by simp [hx]))
      cases ds with
      | nil =>
          simp only [List.cons_append, List.nil_append, findCloseAux]
          rw [if_neg (by simp [hc.1]), if_neg (by simp [hc.2])]
          simpa using hrec
      | cons e ds2 =>
          simp only [List.cons_append, findCloseAux]
          rw [if_neg (by simp [hc.1]), if_neg (by simp [hc.2])]
          simpa using hrec

/-- `findClose` on a non-empty capture followed by `\x7d\x7d`. -/
theorem findClose_key (ds rest : List Char) (hne : ds ≠ [])
    (h : ∀ c ∈ ds, c ≠ '}' ∧ isNlChar c = false) :
    findClose (ds ++ '}' :: '}' :: rest) = some (ds, rest) := by
  cases ds with
  | nil => exact absurd rfl hne
  | cons c ds2 =>
      have hc := h c (by simp)
      simp only [List.cons_append, findClose]
      rw [if_neg (by simp [hc.2])]
      rw [findCloseAux_keys ds2 [c] rest (fun x hx => h x (by simp [hx]))]
      rfl

/-- The scan leaves an empty input alone under any fuel. -/
theorem scanGo_nil (subst : String → String) (fuel : Nat) :
    scanGo subst fuel [] = [] := by
  cases fuel <;> rfl

/-- A template that is exactly one placeholder is replaced by the
substitution of its capture. -/
theorem scanTemplate_single (subst : String → String) (kd : List Char)
    (hne : kd ≠ []) (hch : ∀ c ∈ kd, c ≠ '}' ∧ isNlChar c = false) :
    scanTemplate subst ('{' :: '{' :: (kd ++ ['}', '}'])) =
      (subst (String.mk kd)).data := by
  simp only [scanTemplate]
  obtain ⟨f, hf⟩ : ∃ f, ('{' :: '{' :: (kd ++ ['}', '}'])).length = f + 1 :=
    ⟨kd.length + 3, by simp⟩
  rw [hf]
  simp only [scanGo]
  rw [if_pos (by decide)]
  rw [findClose_key kd [] hne hch]
  simp only []
  rw [scanGo_nil]
  simp

/-- C7 counterexample: with the model entry bound to the array
`[undefined]`, the whole-value placeholder slot receives `[null]` — the
serialize/re-parse step does not return the array itself. -/
theorem C7_counterexample :
    interpolate (.obj [("results", .str "\x7b\x7bresults\x7d\x7d")])
        [("results", .arr [.undef])]
      = .obj [("results", .arr [.null])] ∧
    JSVal.arr [.null] ≠ .arr [.undef] := by
  refine ⟨rfl, ?_⟩
  intro h
  simp at h

/-- C7 amended: for a mapping template whose slot is exactly the
whole-value placeholder string for a key `k` (non-empty, no closing brace
or newline in its characters), and a model binding `k` to a
JSON-representable array, `interpolate` puts the array itself in that
slot: the substituted slot string is the array's serialization, which the
opportunistic `JSON.parse` step turns back into the array. -/
theorem C7_whole_value_array (slotKey k : String) (model : List (String × JSVal))
    (l : List JSVal) (hk : k.data ≠ [])
    (hch : ∀ c ∈ k.data, c ≠ '}' ∧ isNlChar c = false)
    (hbind : jsLookup model k = some (.arr l))
    (hrep : jsonRepresentable (.arr l) = true) :
    interpolate (.obj [(slotKey, .str ("\x7b\x7b" ++ k ++ "\x7d\x7d"))]) model
      = .obj [(slotKey, .arr l)] := by
  have hd : ("\x7b\x7b" ++ k ++ "\x7d\x7d").data
      = '{' :: '{' :: (k.data ++ ['}', '}']) := rfl
  have hstr : interpolate (.str ("\x7b\x7b" ++ k ++ "\x7d\x7d")) model
      = .str (String.mk (stringifyJSON (.arr l))) := by
    simp only [interpolate, replacePlaceholders, hd]
    rw [scanTemplate_single _ k.data hk hch]
    have hkmk : String.mk k.data = k := rfl
    rw [hkmk]
    simp only [substPlaceholder, hbind, Option.getD_some]
    rw [if_neg (by simp [falsy])]
  have hslot : slotResult (interpolate
      (.str ("\x7b\x7b" ++ k ++ "\x7d\x7d")) model) = some (.arr l) := by
    rw [hstr]
    simp only [slotResult, jsToString]
    rw [parseJSONStr_stringify (.arr l) hrep]
  simp only [interpolate] at hslot
  simp only [interpolate, interpFields, hslot]

/-- Witness for C7 amended: `interpolate(\x7bresults: "\x7b\x7bresults\x7d\x7d"\x7d,
\x7bresults: ["pass","fail"]\x7d)` yields the array itself in the slot. -/
theorem C7_whole_value_array_witness :
    interpolate (.obj [("results", .str ("\x7b\x7b" ++ "results" ++ "\x7d\x7d"))])
        [("results", .arr [.str "pass", .str "fail"])]
      = .obj [("results", .arr [.str "pass", .str "fail"])] :=
  C7_whole_value_array "results" "results"
    [("results", .arr [.str "pass", .str "fail"])]
    [.str "pass", .str "fail"] (by decide) (by decide) (by decide) (by decide)

/-- Witness for C9: `noop` is accepted as a threshold, an unknown name is
rejected with the error message and the threshold is kept. -/
theorem C9_setLogLevel_witness :
    setLogLevel "noop" "info" = ("noop", none) ∧
    setLogLevel "bogus" "info" =
      ("info", some "bogus is not a valid logger level") :=
  ⟨(C9_setLogLevel "noop" "info").1 (by decide),
   (C9_setLogLevel "bogus" "info").2.1 (by decide)⟩

end LogNg
